import Mathlib

/-!
The property engine and the minimizers of qcxx.

A shallow embedding of `include/qcxx.hpp`.

* `std::list<T>` is `List T`; the parameter pack `Params...` of a property is a
  first parameter followed by the list of the others (a property has at least
  one parameter: `reducible` has no overload without arguments), all values
  living in one value type `α`.
* The random engine is a state of type `E`, threaded through every call that
  receives `this->engine()`.
* `std::ostream& out` is the list of the messages written so far.
* A C++ exception is `Result.fault`; behaviour the C++ standard leaves
  undefined (dereferencing `begin()` of an empty list) is `Result.undefined`.
* `size_type` is `unsigned int`: arithmetic on it is taken modulo `2 ^ 32`.
* The predicate, the generators and the minimizers receive the engine only;
  the configuration is written by `go` alone.
* The loop of `go` need not end (a predicate may return `TEST_NOTHING` for
  ever), so it is run on fuel: one unit per iteration.
* The minimizer of reals is taken in exact rational arithmetic; a value that
  `std::isfinite` rejects is `none`.
* An iterator into a container is the list of the elements from its position
  to the end.
-/

namespace qcxx

/-- The enumeration `state` of the header. -/
inductive state where
  | TEST_FAILURE
  | TEST_SUCCESS
  | TEST_DISCARD
  | TEST_NOTHING
  deriving DecidableEq, Repr

open state

/-- What evaluating a piece of the engine yields: a value, a thrown C++
exception, or undefined behaviour. -/
inductive Result (β : Type) where
  | value (b : β)
  | fault
  | undefined
  deriving DecidableEq, Repr

/-- The width of `size_type` (`unsigned int`). -/
def size_type_mod : Nat := 2 ^ 32

/-- The struct `qc_config`. -/
structure qc_config where
  n_tests : Nat
  max_tests : Nat
  n_discards : Nat
  max_discards : Nat
  deriving DecidableEq, Repr

/-- The constructor `qc_config::qc_config(void)`. -/
def qc_config.default : qc_config :=
  { n_tests := 0, max_tests := 128, n_discards := 0, max_discards := 1024 }

/-- The method `qc_config::again`. -/
def qc_config.again (c : qc_config) : Bool :=
  decide (c.n_tests < c.max_tests) && decide (c.n_discards < c.max_discards)

/-- Every field of the configuration is a value of `size_type`. -/
def qc_config.representable (c : qc_config) : Prop :=
  c.n_tests < size_type_mod ∧ c.max_tests < size_type_mod ∧
    c.n_discards < size_type_mod ∧ c.max_discards < size_type_mod

instance (c : qc_config) : Decidable c.representable := by
  unfold qc_config.representable; infer_instance

/-- One message written to the output stream.
* `falsifiable n xs`: the line `Falsifiable, after n tests: ` followed by
  `show_all(out, xs...)`, one rendered line per parameter (`property::failure`);
* `ok n m`: the line `OK, n tests passed, m tests discarded`;
* `caught n`: the line `Failed, caught exception after n tests`. -/
inductive message (α : Type) where
  | falsifiable (n : Nat) (xs : List α)
  | ok (n m : Nat)
  | caught (n : Nat)
  deriving DecidableEq, Repr

/-- A predicate `property::test`: from the parameter values and the engine
state to an outcome (`none` when it throws) and the engine state it leaves. -/
abbrev predicate (E α : Type) : Type := List α → E → Option state × E

section engine

variable {E α : Type}

/-- The helper `property::data`: `*c.begin()`, undefined on an empty list. -/
def data (c : List α) : Option α := c.head?

/-- The helper `property::reduce`: `Container(++c.begin(), c.end())`. -/
def reduce (c : List α) : List α := c.tail

/-- The overloads of `property::reducible`: `c.size() > 1` for one container,
`reducible(c) && reducible(cs...)` for more. -/
def reducible : List α → List (List α) → Bool
  | c, [] => decide (c.length > 1)
  | c, c' :: cs => decide (c.length > 1) && reducible c' cs

/-- The pack expansion `this->data(xs)...` over the parameters after the
first. -/
def data_all : List (List α) → Option (List α)
  | [] => some []
  | c :: cs =>
    match data c, data_all cs with
    | some x, some ys => some (x :: ys)
    | _, _ => none

/-- The `k`-th element of every sequence (of those that have one): the heads
after `k` applications of `reduce` to every sequence. -/
def column (k : Nat) (seqs : List (List α)) : List α :=
  seqs.filterMap (fun s => s[k]?)

/-- The method `property::failure`: the message it writes. -/
def failure (conf : qc_config) (xs : List α) : message α :=
  message.falsifiable ((conf.n_tests + 1) % size_type_mod) xs

/-- The method `property::step` on the candidate sequences `c, cs...`, from the
output written so far and the engine state. -/
def step (test : predicate E α) (conf : qc_config) :
    List α → List (List α) → List (message α) → E →
      Result state × List (message α) × E
  | [], _, out, e => (Result.undefined, out, e)
  | x :: c, cs, out, e =>
    match data_all cs with
    | none => (Result.undefined, out, e)
    | some ys =>
      match test (x :: ys) e with
      | (none, e1) => (Result.fault, out, e1)
      | (some r0, e1) =>
        if r0 = TEST_FAILURE then
          if reducible (x :: c) cs then
            match step test conf c (cs.map reduce) out e1 with
            | (Result.value r1, out2, e2) =>
              if r1 = TEST_SUCCESS ∨ r1 = TEST_DISCARD ∨ r1 = TEST_NOTHING then
                (Result.value r0, out2 ++ [failure conf (x :: ys)], e2)
              else
                (Result.value r0, out2, e2)
            | (Result.fault, out2, e2) => (Result.fault, out2, e2)
            | (Result.undefined, out2, e2) => (Result.undefined, out2, e2)
          else
            (Result.value r0, out ++ [failure conf (x :: ys)], e1)
        else
          (Result.value r0, out, e1)

/-- The binding of one parameter type `P` in the registry:
`get_generator<P>(engine)()` and `get_minimizer<P>(engine)(x)`, each from the
engine state to a value (`none` when it throws) and the engine state it
leaves. -/
structure binding (E α : Type) where
  generator : E → Option α × E
  minimizer : α → E → Option (List α) × E

/-- The argument `get_minimizer<P>(engine)(get_generator<P>(engine)())` of the
call of `step` in `go`, for one parameter. -/
def binding.candidates (b : binding E α) (e : E) : Option (List α) × E :=
  match b.generator e with
  | (none, e1) => (none, e1)
  | (some x, e1) => b.minimizer x e1

/-- The pack expansion of that argument over the parameters after the first,
evaluated from left to right (C++ leaves the order among the arguments
open). -/
def candidates_all : List (binding E α) → E → Option (List (List α)) × E
  | [], e => (some [], e)
  | b :: bs, e =>
    match b.candidates e with
    | (none, e1) => (none, e1)
    | (some c, e1) =>
      match candidates_all bs e1 with
      | (none, e2) => (none, e2)
      | (some cs, e2) => (some (c :: cs), e2)

/-- The message of the handler `catch(...)` in `go`. -/
def caught_message (conf : qc_config) : message α :=
  message.caught ((conf.n_tests + 1) % size_type_mod)

/-- The `try` block of `go`: the candidate sequences of every parameter are
drawn, then `step` is called on them. -/
def try_block (test : predicate E α) (b : binding E α) (bs : List (binding E α))
    (conf : qc_config) (out : List (message α)) (e : E) :
    Result state × List (message α) × E :=
  match b.candidates e with
  | (none, e1) => (Result.fault, out, e1)
  | (some c, e1) =>
    match candidates_all bs e1 with
    | (none, e2) => (Result.fault, out, e2)
    | (some cs, e2) => step test conf c cs out e2

/-- The `try` block of `go` with its handler `catch(...)`: the new value of
`r`, the output and the engine state. -/
def attempt (test : predicate E α) (b : binding E α) (bs : List (binding E α))
    (conf : qc_config) (out : List (message α)) (e : E) :
    Result state × List (message α) × E :=
  match try_block test b bs conf out e with
  | (Result.value r, out1, e1) => (Result.value r, out1, e1)
  | (Result.fault, out1, e1) =>
    (Result.value TEST_FAILURE, out1 ++ [caught_message conf], e1)
  | (Result.undefined, out1, e1) => (Result.undefined, out1, e1)

/-- The `switch (r)` at the end of the loop body of `go`. -/
def account (r : state) (conf : qc_config) : qc_config :=
  match r with
  | TEST_SUCCESS => { conf with n_tests := (conf.n_tests + 1) % size_type_mod }
  | TEST_DISCARD => { conf with n_discards := (conf.n_discards + 1) % size_type_mod }
  | _ => conf

/-- The body of the `while` loop of `go`: the attempt, then the `switch`. It
yields the new value of `r`, the configuration, the output and the engine
state. -/
def iteration (test : predicate E α) (b : binding E α) (bs : List (binding E α))
    (conf : qc_config) (out : List (message α)) (e : E) :
    Result state × qc_config × List (message α) × E :=
  match attempt test b bs conf out e with
  | (Result.value r, out1, e1) => (Result.value r, account r conf, out1, e1)
  | (Result.fault, out1, e1) => (Result.fault, conf, out1, e1)
  | (Result.undefined, out1, e1) => (Result.undefined, conf, out1, e1)

/-- The `while` loop of `go`, run for at most `fuel` iterations: `none` when
the loop has not ended by then. The state is `r`, the configuration, the
output and the engine. -/
def go_loop (test : predicate E α) (b : binding E α) (bs : List (binding E α)) :
    Nat → state → qc_config → List (message α) → E →
      Option (Result state × qc_config × List (message α) × E)
  | 0, r, conf, out, e =>
    if conf.again = true ∧ r ≠ TEST_FAILURE then none
    else some (Result.value r, conf, out, e)
  | fuel + 1, r, conf, out, e =>
    if conf.again = true ∧ r ≠ TEST_FAILURE then
      match iteration test b bs conf out e with
      | (Result.value r1, conf1, out1, e1) => go_loop test b bs fuel r1 conf1 out1 e1
      | (Result.fault, conf1, out1, e1) => some (Result.fault, conf1, out1, e1)
      | (Result.undefined, conf1, out1, e1) => some (Result.undefined, conf1, out1, e1)
    else some (Result.value r, conf, out, e)

/-- The method `property::go`, its loop run for at most `fuel` iterations. -/
def go (test : predicate E α) (b : binding E α) (bs : List (binding E α))
    (fuel : Nat) (conf : qc_config) (out : List (message α)) (e : E) :
    Option (Result state × qc_config × List (message α) × E) :=
  match go_loop test b bs fuel TEST_NOTHING conf out e with
  | none => none
  | some (Result.value r, conf1, out1, e1) =>
    if r = TEST_SUCCESS then
      some (Result.value r, conf1,
        out1 ++ [message.ok conf1.n_tests conf1.n_discards], e1)
    else some (Result.value r, conf1, out1, e1)
  | some (Result.fault, conf1, out1, e1) => some (Result.fault, conf1, out1, e1)
  | some (Result.undefined, conf1, out1, e1) => some (Result.undefined, conf1, out1, e1)

/-- The predicate `test` with a counter of its invocations kept next to the
engine state. -/
def counted (test : predicate E α) : predicate (E × Nat) α := fun xs s =>
  ((test xs s.1).1, ((test xs s.1).2, s.2 + 1))

end engine

section minimizers

variable {E : Type}

/-- The standard library's `std::uniform_int_distribution<T>(a, b)` applied to
the engine: the draw and the engine state it leaves, with the guarantee of the
C++ standard that the draw lies in the closed interval. -/
structure random_source (E : Type) where
  uniform_int : Int → Int → E → Int × E
  uniform_int_range : ∀ a b e, a ≤ b →
    a ≤ (uniform_int a b e).1 ∧ (uniform_int a b e).1 ≤ b

/-- The `for` loop of `integral_minimizer::operator()`, entered with the value
`i`: the values pushed and the engine state left. `i /= d` is the division of
C++, truncated toward zero; the quotient by 2 or 3 lies between 0 and `i`, so
it is a value of `Type` again and no wrap-around occurs. -/
def integral_minimizer_loop (rs : random_source E) (i : Int) (e : E) : List Int × E :=
  if i = 0 then ([], e)
  else
    let r := integral_minimizer_loop rs (i.tdiv (rs.uniform_int 2 3 e).1)
      (rs.uniform_int 2 3 e).2
    (i :: r.1, r.2)
termination_by i.natAbs
decreasing_by
  have hd := (rs.uniform_int_range 2 3 e (by decide)).1
  rw [Int.natAbs_tdiv]
  apply Nat.div_lt_self <;> omega

/-- The method `integral_minimizer::operator()`. -/
def integral_minimizer (rs : random_source E) (x : Int) (e : E) : List Int × E :=
  ((integral_minimizer_loop rs x e).1 ++ [0], (integral_minimizer_loop rs x e).2)

/-- The loop `for (auto n : ns)` of `container_minimizer::operator()`: for each
`n` the container built from the range `[x.begin(), x.begin() + n)`. -/
def container_minimizer_loop {β : Type} (x : List β) : List Int → List (List β)
  | [] => []
  | n :: ns => x.take n.toNat :: container_minimizer_loop x ns

/-- The method `container_minimizer::operator()`: `ns` is the integral
minimizer's sequence for `x.size()`. -/
def container_minimizer {β : Type} (rs : random_source E) (x : List β) (e : E) :
    List (List β) × E :=
  (container_minimizer_loop x (integral_minimizer rs (x.length : Int) e).1,
    (integral_minimizer rs (x.length : Int) e).2)

/-- The method `minimizer::operator()` of the base class, the minimizer of a
type without a `SHRINK_TYPE` entry: the list holding `x` alone. -/
def minimizer_default {β : Type} (x : β) : List β := [x]

/-- The method `uniform_numeric_generator::operator()(void)` of an integral
type whose `std::numeric_limits` are `lo` and `hi`. -/
def uniform_integral_generator {E : Type} (rs : random_source E) (lo hi : Int) (e : E) :
    Int × E :=
  rs.uniform_int lo hi e

/-- The registry entries `ARBITRARY_TYPE(uniform_integral_generator, T)` and
`SHRINK_TYPE(integral_minimizer, T)` of an integral type `T` whose
`std::numeric_limits` are `lo` and `hi`; neither throws. -/
def integral_binding {E : Type} (rs : random_source E) (lo hi : Int) : binding E Int where
  generator e := (some (uniform_integral_generator rs lo hi e).1,
    (uniform_integral_generator rs lo hi e).2)
  minimizer x e := (some (integral_minimizer rs x e).1, (integral_minimizer rs x e).2)

end minimizers

section real_minimizers

variable {E : Type}

/-- The standard library's `std::uniform_real_distribution<T>(a, b)` applied to
the engine, in exact arithmetic: the draw and the engine state it leaves, with
the guarantee that the draw lies between the bounds. -/
structure real_source (E : Type) where
  uniform_real : ℚ → ℚ → E → ℚ × E
  uniform_real_range : ∀ a b e, a ≤ b →
    a ≤ (uniform_real a b e).1 ∧ (uniform_real a b e).1 ≤ b

/-- The lambda `vel` of `real_minimizer::operator()`: the interval of the
divisor for the magnitude `d`. -/
def vel (d : ℚ) : ℚ × ℚ :=
  if d < 2e64 then (2e1, 3e1)
  else if d < 2e128 then (2e10, 2e20)
  else (2e75, 2e100)

/-- The `do ... while (a > 1e-20)` loop of `real_minimizer::operator()`,
entered with the value `b`, in exact arithmetic: the values pushed and the
engine state left. -/
def real_minimizer_loop (rs : real_source E) (b : ℚ) (e : E) : List ℚ × E :=
  if 1e-20 < |b| then
    let r := real_minimizer_loop rs
      (b / (rs.uniform_real (vel |b|).1 (vel |b|).2 e).1)
      (rs.uniform_real (vel |b|).1 (vel |b|).2 e).2
    (b / (rs.uniform_real (vel |b|).1 (vel |b|).2 e).1 :: r.1, r.2)
  else
    ([b / (rs.uniform_real (vel |b|).1 (vel |b|).2 e).1],
      (rs.uniform_real (vel |b|).1 (vel |b|).2 e).2)
termination_by ⌈|b| * 1e20⌉₊
decreasing_by
  rename_i hb
  have hv : 20 ≤ (vel |b|).1 ∧ (vel |b|).1 ≤ (vel |b|).2 := by
    unfold vel
    split
    · norm_num
    · split <;> norm_num
  have hr : (20 : ℚ) ≤ (rs.uniform_real (vel |b|).1 (vel |b|).2 e).1 :=
    le_trans hv.1 (rs.uniform_real_range _ _ e hv.2).1
  generalize (rs.uniform_real (vel |b|).1 (vel |b|).2 e).1 = r at hr
  have hr0 : (0 : ℚ) < r := by linarith
  have hy : (1 : ℚ) < |b| * 1e20 := by
    norm_num at hb ⊢
    linarith
  rw [Nat.lt_ceil, abs_div, abs_of_pos hr0, div_mul_eq_mul_div]
  by_cases hsmall : |b| * 1e20 / r ≤ 1
  · have h0 : ⌈|b| * 1e20 / r⌉₊ ≤ 1 := Nat.ceil_le.2 (by simpa using hsmall)
    have h1 : ((⌈|b| * 1e20 / r⌉₊ : ℕ) : ℚ) ≤ 1 := by exact_mod_cast h0
    exact lt_of_le_of_lt h1 hy
  · push_neg at hsmall
    have hnn : (0 : ℚ) ≤ |b| * 1e20 / r := by positivity
    have h1 := Nat.ceil_lt_add_one hnn
    have h2 : |b| * 1e20 / r ≤ |b| * 1e20 / 20 :=
      div_le_div_of_nonneg_left (by positivity) (by norm_num) hr
    have h3 : (20 : ℚ) < |b| * 1e20 := by
      have := (lt_div_iff₀ hr0).1 hsmall
      linarith
    linarith [h1, h2, h3]

/-- The method `real_minimizer::operator()` in exact arithmetic. A finite value
is `some b`; `none` is a value that `std::isfinite` rejects (an infinity or a
NaN), for which the loop is skipped. -/
def real_minimizer (rs : real_source E) (x : Option ℚ) (e : E) : List (Option ℚ) × E :=
  match x with
  | some b =>
    (some b :: ((real_minimizer_loop rs b e).1.map some ++ [some 0]),
      (real_minimizer_loop rs b e).2)
  | none => ([none, some 0], e)

end real_minimizers

section combinators

variable {E β : Type}

/-- The `std::accumulate` of `frequency`: the sum of the weights, from 0, in
`size_type`. -/
def frequency_sum (xs : List (Nat × β)) : Nat :=
  xs.foldl (fun a b => (a + b.1) % size_type_mod) 0

/-- The loop `for (auto x : xs)` of `frequency` on the draw `n`, with the
`QCXX_THROW(std::logic_error, ...)` that follows it: `none` is the throw. -/
def frequency_scan (n : Int) : List (Nat × β) → Option β
  | [] => none
  | x :: xs => if n ≤ (x.1 : Int) then some x.2 else frequency_scan n xs

/-- The function `frequency`: the value picked (`none` when it throws) and the
engine state left by the draw. -/
def frequency (rs : random_source E) (xs : List (Nat × β)) (e : E) : Option β × E :=
  (frequency_scan (rs.uniform_int 0 (frequency_sum xs) e).1 xs,
    (rs.uniform_int 0 (frequency_sum xs) e).2)

/-- The scan as the specification words it: the value of the first entry at
which the running sum of the weights scanned so far (from `acc`, that entry
included) is greater than or equal to `n`; `none` when no entry is. -/
def frequency_by_running_sum (n : Int) : Int → List (Nat × β) → Option β
  | _, [] => none
  | acc, x :: xs =>
    if n ≤ acc + (x.1 : Int) then some x.2
    else frequency_by_running_sum n (acc + (x.1 : Int)) xs

/-- An iterator into a container is the list of the elements from its position
to the end, `end()` being `[]`; this is `std::distance(first, last)` for
`last` reachable from `first`. -/
def distance (first last : List β) : Int := (first.length : Int) - (last.length : Int)

/-- The function `oneof(engine, begin, end)`: the iterator `begin` advanced by
the draw from `[0, distance - 1]`. On an empty range the bounds of the
distribution are `0` and `-1`, which the C++ standard leaves undefined. -/
def oneof_range (rs : random_source E) (first last : List β) (e : E) :
    Result (List β) × E :=
  if distance first last - 1 < 0 then (Result.undefined, e)
  else
    (Result.value (first.drop (rs.uniform_int 0 (distance first last - 1) e).1.toNat),
      (rs.uniform_int 0 (distance first last - 1) e).2)

/-- The function `oneof(engine, container)`:
`oneof(engine, container.begin(), container.end())`. -/
def oneof (rs : random_source E) (container : List β) (e : E) : Result (List β) × E :=
  oneof_range rs container [] e

end combinators

section generators

variable {E β : Type}

/-- The method `uniform_numeric_generator::operator()(min, max)` of an
integral type: `Uniform<Type> distribution(min, max)` applied to the
engine. -/
def uniform_integral_generator_interval (rs : random_source E) (mn mx : Int) (e : E) :
    Int × E :=
  rs.uniform_int mn mx e

/-- The method `uniform_numeric_generator::operator()(min, max)` of a
floating-point type, in exact arithmetic. -/
def uniform_real_generator_interval (rs : real_source E) (mn mx : ℚ) (e : E) : ℚ × E :=
  rs.uniform_real mn mx e

/-- The property method of `PROPERTY_TYPE_GEN_IN_INTERVAL` in the tests, for an
integral type: the outcome on `x` and `y` (a `bool` converts to
`TEST_SUCCESS` when true and to `TEST_FAILURE` when false). -/
def prop_GenInInterval (rs : random_source E) (x y : Int) (e : E) : state × E :=
  (if min x y ≤ (uniform_integral_generator_interval rs (min x y) (max x y) e).1 ∧
      (uniform_integral_generator_interval rs (min x y) (max x y) e).1 ≤ max x y
    then TEST_SUCCESS else TEST_FAILURE,
    (uniform_integral_generator_interval rs (min x y) (max x y) e).2)

/-- The loop `for (i = 0; i < n; ++i) xs.push_back(gen())` of
`back_container_generator::operator()(n)`, with `k` iterations left, `xs` the
container so far and `gen` the generator of the element type. -/
def back_container_generator_loop (gen : E → β × E) : Nat → List β → E → List β × E
  | 0, xs, e => (xs, e)
  | k + 1, xs, e => back_container_generator_loop gen k (xs ++ [(gen e).1]) (gen e).2

/-- The method `back_container_generator::operator()(n)`. -/
def back_container_generator_sized (gen : E → β × E) (n : Nat) (e : E) : List β × E :=
  back_container_generator_loop gen n [] e

/-- The method `back_container_generator::operator()(void)`: the size is drawn
from `[0, 128]` by the generator of `size_type`. -/
def back_container_generator (rs : random_source E) (gen : E → β × E) (e : E) :
    List β × E :=
  back_container_generator_sized gen (rs.uniform_int 0 128 e).1.toNat
    (rs.uniform_int 0 128 e).2

/-- The engine state before the `i`-th draw of a divisor by the integral
minimizer started in the state `e` (counting from 0). -/
def divisor_state (rs : random_source E) (e : E) (i : Nat) : E :=
  (fun s => (rs.uniform_int 2 3 s).2)^[i] e

/-- The `i`-th divisor `gen(2, 3)` drawn by the integral minimizer started in
the state `e` (counting from 0). -/
def divisor (rs : random_source E) (e : E) (i : Nat) : Int :=
  (rs.uniform_int 2 3 (divisor_state rs e i)).1

end generators

section examples

/-- A predicate that holds exactly when every parameter is 0 and leaves the
engine alone. -/
def all_zero : predicate Unit Int := fun xs e =>
  (some (if xs.all (fun x => decide (x = 0)) then TEST_SUCCESS else TEST_FAILURE), e)

/-- A predicate that fails on parameters other than 0 and throws when every
parameter is 0. -/
def throws_at_zero : predicate Unit Int := fun xs e =>
  (if xs.all (fun x => decide (x = 0)) then none else some TEST_FAILURE, e)

/-- A predicate that fails on every input (`return false;`). -/
def never_holds {E α : Type} : predicate E α := fun _ e => (some TEST_FAILURE, e)

/-- A predicate that declines every input (`return qcxx::TEST_DISCARD;`). -/
def always_discards {E α : Type} : predicate E α := fun _ e => (some TEST_DISCARD, e)

/-- A predicate that holds on every input (`return true;`). -/
def always_holds {E α : Type} : predicate E α := fun _ e => (some TEST_SUCCESS, e)

/-- The binding of a type whose generator returns `x` every time and whose
minimizer is the default one. -/
def constant_binding (x : Int) : binding Unit Int where
  generator e := (some x, e)
  minimizer y e := (some (minimizer_default y), e)

/-- A random source that draws `n` whenever `n` lies in the interval asked for
(and the nearest bound otherwise). -/
def fixed_source (n : Int) : random_source Unit where
  uniform_int a b e := (max a (min n b), e)
  uniform_int_range a b e h := by
    constructor <;> simp only <;> omega

/-- A source of reals that draws the lower bound of the interval every
time. -/
def lowest_source : real_source Unit where
  uniform_real a _ e := (a, e)
  uniform_real_range _ _ _ h := ⟨le_refl _, h⟩

/-- A random source whose state counts the draws: the draw from `[a, b]` is `a`
plus the count modulo the width of the interval. -/
def counting_source : random_source Nat where
  uniform_int a b e := (a + (e : Int) % (b - a + 1), e + 1)
  uniform_int_range a b e h := by
    have hpos : (0 : Int) < b - a + 1 := by omega
    have h1 := Int.emod_nonneg (e : Int) (ne_of_gt hpos)
    have h2 := Int.emod_lt_of_pos (e : Int) hpos
    constructor <;> simp only <;> omega

end examples

/-! ## The shrink search `step` -/

section step_theorems

variable {E α : Type}

theorem reducible_iff (c : List α) (cs : List (List α)) :
    reducible c cs = true ↔ ∀ s ∈ c :: cs, 1 < s.length := by
  induction cs generalizing c with
  | nil => simp [reducible]
  | cons c' cs ih =>
    rw [reducible, Bool.and_eq_true, ih c']
    simp

theorem data_all_ne_nil {cs : List (List α)} {ys : List α}
    (h : data_all cs = some ys) : ∀ s ∈ cs, s ≠ [] := by
  induction cs generalizing ys with
  | nil => simp
  | cons c cs ih =>
    cases c with
    | nil => simp [data_all, data] at h
    | cons y c =>
      cases hcs : data_all cs with
      | none => simp [data_all, data, hcs] at h
      | some zs =>
        intro s hs
        rcases List.mem_cons.1 hs with rfl | hs
        · simp
        · exact ih hcs s hs

theorem not_reducible_iff (x : α) (c : List α) (cs : List (List α)) (ys : List α)
    (h : data_all cs = some ys) :
    reducible (x :: c) cs = false ↔ ∃ s ∈ (x :: c) :: cs, s.length = 1 := by
  rw [← Bool.not_eq_true, reducible_iff]
  push_neg
  constructor
  · rintro ⟨s, hs, hlen⟩
    refine ⟨s, hs, ?_⟩
    have hne : s ≠ [] := by
      rcases List.mem_cons.1 hs with rfl | hs
      · simp
      · exact data_all_ne_nil h s hs
    have : 0 < s.length := List.length_pos.2 hne
    omega
  · rintro ⟨s, hs, hlen⟩
    exact ⟨s, hs, by omega⟩

/-- C1: for every predicate and every tuple of non-empty candidate sequences
(the first is `x :: c`, the others `cs` have the heads `ys`), the call of
`step` writes its failure report, after whatever the recursive call wrote, if
and only if the predicate returns `TEST_FAILURE` on the heads and either some
sequence has exactly one element left or the recursive call on the tails
returns an outcome other than `TEST_FAILURE`; otherwise it writes nothing of
its own. -/
theorem step_reports_iff (test : predicate E α) (conf : qc_config)
    (x : α) (c : List α) (cs : List (List α)) (ys : List α)
    (out : List (message α)) (e : E) (hys : data_all cs = some ys) :
    ((step test conf (x :: c) cs out e).2.1 =
        (if (test (x :: ys) e).1 = some TEST_FAILURE ∧ reducible (x :: c) cs = true
          then (step test conf c (cs.map reduce) out (test (x :: ys) e).2).2.1
          else out) ++ [failure conf (x :: ys)]
      ↔ ((test (x :: ys) e).1 = some TEST_FAILURE ∧
          ((∃ s ∈ (x :: c) :: cs, s.length = 1) ∨
            ∃ r1, (step test conf c (cs.map reduce) out (test (x :: ys) e).2).1
              = Result.value r1 ∧ r1 ≠ TEST_FAILURE))) ∧
    (¬ ((test (x :: ys) e).1 = some TEST_FAILURE ∧
          ((∃ s ∈ (x :: c) :: cs, s.length = 1) ∨
            ∃ r1, (step test conf c (cs.map reduce) out (test (x :: ys) e).2).1
              = Result.value r1 ∧ r1 ≠ TEST_FAILURE)) →
      (step test conf (x :: c) cs out e).2.1 =
        (if (test (x :: ys) e).1 = some TEST_FAILURE ∧ reducible (x :: c) cs = true
          then (step test conf c (cs.map reduce) out (test (x :: ys) e).2).2.1
          else out)) := by
  rw [← not_reducible_iff x c cs ys hys]
  simp only [step, hys]
  rcases ht : test (x :: ys) e with ⟨_ | r0, e1⟩
  · simp
  · by_cases hr0 : r0 = TEST_FAILURE
    · subst hr0
      by_cases hr : reducible (x :: c) cs = true
      · rcases hi : step test conf c (cs.map reduce) out e1 with ⟨r1 | _ | _, out2, e2⟩
        · cases r1 <;> simp [hr, hi]
        · simp [hr, hi]
        · simp [hr, hi]
      · simp [hr]
    · simp [hr0]

/-- The outcome of `step` when the predicate returns an outcome other than
`TEST_FAILURE` on the heads: that outcome, nothing written. -/
theorem step_of_not_failure (test : predicate E α) (conf : qc_config)
    (x : α) (c : List α) (cs : List (List α)) (ys : List α)
    (out : List (message α)) (e e1 : E) (r : state) (hys : data_all cs = some ys)
    (ht : test (x :: ys) e = (some r, e1)) (hr : r ≠ TEST_FAILURE) :
    step test conf (x :: c) cs out e = (Result.value r, out, e1) := by
  simp [step, hys, ht, hr]

/-- C2 as amended: when the predicate returns `TEST_FAILURE` on the heads and
every sequence has more than one element, `step` returns the predicate's own
outcome `TEST_FAILURE` whatever outcome the recursive call on the tails
returns. -/
theorem step_returns_own_outcome (test : predicate E α) (conf : qc_config)
    (x : α) (c : List α) (cs : List (List α)) (ys : List α)
    (out : List (message α)) (e : E) (hys : data_all cs = some ys)
    (ht : (test (x :: ys) e).1 = some TEST_FAILURE)
    (hred : ∀ s ∈ (x :: c) :: cs, 1 < s.length) (r1 : state)
    (hinner : (step test conf c (cs.map reduce) out (test (x :: ys) e).2).1
      = Result.value r1) :
    (step test conf (x :: c) cs out e).1 = Result.value TEST_FAILURE := by
  have hr : reducible (x :: c) cs = true := (reducible_iff _ _).2 hred
  rcases htt : test (x :: ys) e with ⟨t0, e1⟩
  rw [htt] at ht hinner
  simp only at ht hinner
  subst ht
  rcases hi : step test conf c (cs.map reduce) out e1 with ⟨r | _ | _, out2, e2⟩
  · cases r <;> simp [step, hys, htt, hr, hi]
  · simp [hi] at hinner
  · simp [hi] at hinner

/-- The outcome of `step` when the predicate fails on the heads and some
sequence has no tail to offer: the bottom of the search, which reports. -/
theorem step_of_failure_bottom (test : predicate E α) (conf : qc_config)
    (x : α) (c : List α) (cs : List (List α)) (ys : List α)
    (out : List (message α)) (e e1 : E) (hys : data_all cs = some ys)
    (ht : test (x :: ys) e = (some TEST_FAILURE, e1))
    (hr : reducible (x :: c) cs = false) :
    step test conf (x :: c) cs out e =
      (Result.value TEST_FAILURE, out ++ [failure conf (x :: ys)], e1) := by
  simp only [step, hys, ht, hr]
  simp

/-- The outcome of `step` when the predicate fails on the heads, every
sequence has a tail and the recursive call returns `r1`. -/
theorem step_of_failure_reducible (test : predicate E α) (conf : qc_config)
    (x : α) (c : List α) (cs : List (List α)) (ys : List α)
    (out out2 : List (message α)) (e e1 e2 : E) (r1 : state)
    (hys : data_all cs = some ys)
    (ht : test (x :: ys) e = (some TEST_FAILURE, e1))
    (hr : reducible (x :: c) cs = true)
    (hin : step test conf c (cs.map reduce) out e1 = (Result.value r1, out2, e2)) :
    step test conf (x :: c) cs out e =
      (Result.value TEST_FAILURE,
        if r1 = TEST_FAILURE then out2 else out2 ++ [failure conf (x :: ys)], e2) := by
  simp only [step, hys, ht, hr, hin]
  cases r1 <;> simp

theorem column_cons (x : α) (c : List α) (seqs : List (List α)) :
    column 0 ((x :: c) :: seqs) = x :: column 0 seqs := by
  simp [column]

theorem column_zero {cs : List (List α)} {ys : List α}
    (h : data_all cs = some ys) : column 0 cs = ys := by
  induction cs generalizing ys with
  | nil => simpa [data_all, column] using h
  | cons c cs ih =>
    cases c with
    | nil => simp [data_all, data] at h
    | cons y c =>
      cases hcs : data_all cs with
      | none => simp [data_all, data, hcs] at h
      | some zs =>
        simp only [data_all, data, hcs, List.head?_cons, Option.some.injEq] at h
        rw [column_cons, ih hcs, h]

theorem column_succ (k : Nat) (seqs : List (List α)) :
    column (k + 1) seqs = column k (seqs.map reduce) := by
  induction seqs with
  | nil => simp [column]
  | cons s seqs ih =>
    have hs : s[k + 1]? = (reduce s)[k]? := by
      cases s <;> simp [reduce]
    simp only [column, List.map_cons, List.filterMap_cons] at ih ⊢
    rw [hs, ih]

theorem data_all_of_ne_nil (cs : List (List α)) (h : ∀ s ∈ cs, s ≠ []) :
    ∃ ys, data_all cs = some ys := by
  induction cs with
  | nil => exact ⟨[], rfl⟩
  | cons c cs ih =>
    obtain ⟨zs, hzs⟩ := ih (fun s hs => h s (List.mem_cons_of_mem _ hs))
    cases c with
    | nil => exact absurd rfl (h [] (List.mem_cons_self _ _))
    | cons y c => exact ⟨y :: zs, by simp [data_all, data, hzs]⟩

/-- The heads of non-empty sequences are their column 0, and `step` tests
them. -/
theorem heads_of_pos (c : List α) (cs : List (List α))
    (h : ∀ s ∈ c :: cs, 0 < s.length) :
    ∃ x c1 ys, c = x :: c1 ∧ data_all cs = some ys ∧ column 0 (c :: cs) = x :: ys := by
  cases c with
  | nil => simpa using h [] (List.mem_cons_self _ _)
  | cons x c1 =>
    obtain ⟨ys, hys⟩ := data_all_of_ne_nil cs (fun s hs =>
      List.length_pos.1 (h s (List.mem_cons_of_mem _ hs)))
    exact ⟨x, c1, ys, rfl, hys, by rw [column_cons, column_zero hys]⟩

theorem tails_eq_map (x : α) (c : List α) (cs : List (List α)) :
    c :: cs.map reduce = ((x :: c) :: cs).map reduce := by
  simp [reduce]

/-- C3 as amended: for every predicate and every tuple of non-empty candidate
sequences whose heads make the predicate fail, `step` returns `TEST_FAILURE`
and writes exactly one failure report, showing the `k`-th element of every
sequence, where `k` is the largest index below the shortest sequence's length
such that the predicate fails at every index `0..k`, provided the predicate
raises no fault at index `k + 1`: either `k + 1` is the length of some
sequence, or the predicate returns an outcome other than `TEST_FAILURE`
there. -/
theorem step_reports_last_failing (test : predicate E α) (conf : qc_config)
    (k : Nat) (c : List α) (cs : List (List α)) (out : List (message α)) (e : E)
    (hk : ∀ s ∈ c :: cs, k < s.length)
    (hfail : ∀ j, j ≤ k → ∀ e1, (test (column j (c :: cs)) e1).1 = some TEST_FAILURE)
    (hmax : (∃ s ∈ c :: cs, s.length = k + 1) ∨
      ∀ e1, ∃ r, (test (column (k + 1) (c :: cs)) e1).1 = some r ∧ r ≠ TEST_FAILURE) :
    (step test conf c cs out e).1 = Result.value TEST_FAILURE ∧
      (step test conf c cs out e).2.1 = out ++ [failure conf (column k (c :: cs))] := by
  induction k generalizing c cs out e with
  | zero =>
    obtain ⟨x, c, ys, rfl, hys, hcol⟩ := heads_of_pos c cs hk
    have h0 := hfail 0 (le_refl _) e
    rw [hcol] at h0 ⊢
    rcases ht : test (x :: ys) e with ⟨t0, e1⟩
    rw [ht] at h0
    simp only at h0
    subst h0
    by_cases hr : reducible (x :: c) cs = true
    · have hlen := (reducible_iff _ _).1 hr
      rcases hmax with ⟨s, hs, hs1⟩ | hnext
      · have := hlen s hs
        omega
      · obtain ⟨x1, c1, ys1, rfl, hys1, hcol1⟩ := heads_of_pos c (cs.map reduce)
          (fun s hs => by
            rw [tails_eq_map x] at hs
            obtain ⟨s0, hs0, rfl⟩ := List.mem_map.1 hs
            have := hlen s0 hs0
            simp only [reduce, List.length_tail]
            omega)
        obtain ⟨r, hr1, hrne⟩ := hnext e1
        rw [column_succ, ← tails_eq_map, hcol1] at hr1
        rcases ht1 : test (x1 :: ys1) e1 with ⟨t1, e2⟩
        rw [ht1] at hr1
        simp only at hr1
        subst hr1
        rw [step_of_failure_reducible test conf x (x1 :: c1) cs ys out out e e1 e2 r hys ht hr
          (step_of_not_failure test conf x1 c1 (cs.map reduce) ys1 out e1 e2 r hys1 ht1 hrne)]
        simp [hrne]
    · rw [step_of_failure_bottom test conf x c cs ys out e e1 hys ht (by simpa using hr)]
      simp
  | succ k ih =>
    obtain ⟨x, c, ys, rfl, hys, hcol⟩ := heads_of_pos c cs
      (fun s hs => by have := hk s hs; omega)
    have h0 := hfail 0 (Nat.zero_le _) e
    rw [hcol] at h0
    rcases ht : test (x :: ys) e with ⟨t0, e1⟩
    rw [ht] at h0
    simp only at h0
    subst h0
    have hr : reducible (x :: c) cs = true :=
      (reducible_iff _ _).2 (fun s hs => by have := hk s hs; omega)
    have hin := ih c (cs.map reduce) out e1
      (fun s hs => by
        rw [tails_eq_map x] at hs
        obtain ⟨s0, hs0, rfl⟩ := List.mem_map.1 hs
        have := hk s0 hs0
        simp only [reduce, List.length_tail]
        omega)
      (fun j hj e2 => by
        rw [tails_eq_map x, ← column_succ]
        exact hfail (j + 1) (by omega) e2)
      (by
        rcases hmax with ⟨s0, hs0, hlen⟩ | hnext
        · left
          refine ⟨reduce s0, ?_, ?_⟩
          · rw [tails_eq_map x]; exact List.mem_map_of_mem _ hs0
          · simp only [reduce, List.length_tail]; omega
        · right
          intro e2
          rw [tails_eq_map x, ← column_succ]
          exact hnext e2)
    rw [tails_eq_map x, ← column_succ] at hin
    rcases hi : step test conf c (cs.map reduce) out e1 with ⟨r1, out2, e2⟩
    rw [hi] at hin
    simp only at hin
    obtain ⟨h1, h2⟩ := hin
    subst h1 h2
    rw [step_of_failure_reducible test conf x c cs ys out _ e e1 e2 TEST_FAILURE hys ht hr hi]
    simp

/-- Witness of C1: the predicate fails on the heads `[4, 7]` and returns
`TEST_SUCCESS` on the tails' heads `[0, 0]`, so the call reports its heads. -/
theorem step_reports_iff_witness :
    data_all [[(7 : Int), 0]] = some [7] ∧
    (step all_zero qc_config.default [4, 0] [[7, 0]] [] ()).2.1 =
      [failure qc_config.default [(4 : Int), 7]] :=
  ⟨by decide,
    (step_reports_iff all_zero qc_config.default 4 [0] [[7, 0]] [7] [] ()
      (by decide)).1.2 ⟨rfl, Or.inr ⟨TEST_SUCCESS, rfl, by decide⟩⟩⟩

/-- Counterexample to C2 as stated: on the sequence `[1, 0]` the predicate
fails on the head and the sequence has two elements, the recursive call on the
tail `[0]` returns `TEST_SUCCESS`, and `step` returns `TEST_FAILURE`. -/
theorem step_result_differs_from_inner :
    (all_zero [1] ()).1 = some TEST_FAILURE ∧
    (∀ s ∈ [[(1 : Int), 0]], 1 < s.length) ∧
    (step all_zero qc_config.default (reduce [1, 0]) [] [] ()).1
      = Result.value TEST_SUCCESS ∧
    (step all_zero qc_config.default [1, 0] [] [] ()).1
      = Result.value TEST_FAILURE ∧
    (step all_zero qc_config.default [1, 0] [] [] ()).1 ≠
      (step all_zero qc_config.default (reduce [1, 0]) [] [] ()).1 := by
  decide

/-- Witness of the amended C2 on the sequence `[1, 0]`. -/
theorem step_returns_own_outcome_witness :
    data_all ([] : List (List Int)) = some [] ∧
    (all_zero [1] ()).1 = some TEST_FAILURE ∧
    (∀ s ∈ [[(1 : Int), 0]], 1 < s.length) ∧
    (step all_zero qc_config.default [0] [] [] ()).1 = Result.value TEST_SUCCESS ∧
    (step all_zero qc_config.default [1, 0] [] [] ()).1 = Result.value TEST_FAILURE :=
  ⟨by decide, by decide, by decide, by decide,
    step_returns_own_outcome all_zero qc_config.default 1 [0] [] [] [] ()
      (by decide) (by decide) (by decide) TEST_SUCCESS (by decide)⟩

/-- Counterexample to C3 as stated: on the sequence `[1, 0]` the predicate
fails on the head `1` and throws on `0`; the exception leaves `step` and no
failure report is written. -/
theorem step_writes_nothing_when_shrinking_throws :
    (throws_at_zero [1] ()).1 = some TEST_FAILURE ∧
    (∀ s ∈ [[(1 : Int), 0]], s ≠ []) ∧
    (throws_at_zero (column 1 [[(1 : Int), 0]]) ()).1 ≠ some TEST_FAILURE ∧
    step throws_at_zero qc_config.default [1, 0] [] [] () = (Result.fault, [], ()) := by
  decide

/-- Witness of the amended C3: on the sequences `[4, 0]` and `[7, 0]` the
predicate fails at index 0 and succeeds at index 1, and the report shows
index 0. -/
theorem step_reports_last_failing_witness :
    (∀ s ∈ [[(4 : Int), 0], [7, 0]], 0 < s.length) ∧
    (step all_zero qc_config.default [4, 0] [[7, 0]] [] ()).1
      = Result.value TEST_FAILURE ∧
    (step all_zero qc_config.default [4, 0] [[7, 0]] [] ()).2.1
      = [] ++ [failure qc_config.default (column 0 [[(4 : Int), 0], [7, 0]])] :=
  ⟨by decide,
    step_reports_last_failing all_zero qc_config.default 0 [4, 0] [[7, 0]] [] ()
      (by decide)
      (fun j hj e1 => by
        obtain rfl : j = 0 := by omega
        cases e1
        decide)
      (Or.inr (fun e1 => ⟨TEST_SUCCESS, by cases e1; decide, by decide⟩))⟩

end step_theorems

/-! ## The minimizers -/

section minimizer_theorems

variable {E : Type}

theorem integral_minimizer_loop_zero (rs : random_source E) (e : E) :
    integral_minimizer_loop rs 0 e = ([], e) := by
  rw [integral_minimizer_loop]
  simp

theorem integral_minimizer_loop_of_ne_zero (rs : random_source E) (i : Int) (e : E)
    (h : i ≠ 0) :
    integral_minimizer_loop rs i e =
      (i :: (integral_minimizer_loop rs (i.tdiv (rs.uniform_int 2 3 e).1)
          (rs.uniform_int 2 3 e).2).1,
        (integral_minimizer_loop rs (i.tdiv (rs.uniform_int 2 3 e).1)
          (rs.uniform_int 2 3 e).2).2) := by
  rw [integral_minimizer_loop]
  simp [h]

/-- The quotient of `i` by a draw from `[2, 3]`: strictly smaller in absolute
value when `i` is not 0, and of the sign of `i`. -/
theorem tdiv_draw (rs : random_source E) (i : Int) (e : E) :
    ((i.tdiv (rs.uniform_int 2 3 e).1).natAbs ≤ i.natAbs) ∧
    (i ≠ 0 → (i.tdiv (rs.uniform_int 2 3 e).1).natAbs < i.natAbs) ∧
    (0 ≤ i → 0 ≤ i.tdiv (rs.uniform_int 2 3 e).1) := by
  have hd := (rs.uniform_int_range 2 3 e (by decide)).1
  refine ⟨?_, ?_, ?_⟩
  · rw [Int.natAbs_tdiv]
    exact Nat.div_le_self _ _
  · intro h
    rw [Int.natAbs_tdiv]
    apply Nat.div_lt_self <;> omega
  · intro h
    exact Int.tdiv_nonneg h (by omega)

/-- What the loop of the integral minimizer pushes: values no larger than `i`
in absolute value, each no larger than the one before, the first being `i`
itself when `i` is not 0, and non-negative values when `i` is. -/
theorem integral_minimizer_loop_spec (rs : random_source E) (n : Nat) :
    ∀ (i : Int) (e : E), i.natAbs ≤ n →
      (∀ y ∈ (integral_minimizer_loop rs i e).1, y.natAbs ≤ i.natAbs) ∧
      (∀ y ∈ (integral_minimizer_loop rs i e).1, y ≠ 0) ∧
      (0 ≤ i → ∀ y ∈ (integral_minimizer_loop rs i e).1, 0 ≤ y) ∧
      (i ≠ 0 → (integral_minimizer_loop rs i e).1.head? = some i) ∧
      List.Chain' (fun a b : Int => b.natAbs ≤ a.natAbs)
        ((integral_minimizer_loop rs i e).1 ++ [0]) := by
  induction n with
  | zero =>
    intro i e hi
    obtain rfl : i = 0 := by omega
    rw [integral_minimizer_loop_zero]
    simp
  | succ n ih =>
    intro i e hi
    by_cases h0 : i = 0
    · subst h0
      rw [integral_minimizer_loop_zero]
      simp
    · obtain ⟨hle, hlt, hnn⟩ := tdiv_draw rs i e
      have hlt := hlt h0
      obtain ⟨h1, h2, h3, h4, h5⟩ := ih (i.tdiv (rs.uniform_int 2 3 e).1)
        (rs.uniform_int 2 3 e).2 (by omega)
      rw [integral_minimizer_loop_of_ne_zero rs i e h0]
      refine ⟨?_, ?_, ?_, ?_, ?_⟩
      · intro y hy
        rcases List.mem_cons.1 hy with rfl | hy
        · exact le_refl _
        · exact le_trans (h1 y hy) hle
      · intro y hy
        rcases List.mem_cons.1 hy with rfl | hy
        · exact h0
        · exact h2 y hy
      · intro hi0 y hy
        rcases List.mem_cons.1 hy with rfl | hy
        · exact hi0
        · exact h3 (hnn hi0) y hy
      · intro _
        rfl
      · rw [List.cons_append]
        apply List.Chain'.cons' h5
        intro y hy
        by_cases hq : i.tdiv (rs.uniform_int 2 3 e).1 = 0
        · rw [hq, integral_minimizer_loop_zero] at hy
          simp at hy
          subst hy
          simp
        · rw [List.head?_append_of_ne_nil _ (by
            intro hnil
            have := h4 hq
            rw [hnil] at this
            simp at this)] at hy
          rw [h4 hq] at hy
          simp at hy
          subst hy
          exact hle

/-- C4: for every integer `x` other than 0 and every choice of the random
divisors in `[2, 3]`, the sequence of the integral minimizer starts with `x`,
ends with 0, has at least 2 elements and does not increase in absolute value
from an element to the next. -/
theorem integral_minimizer_shrinks_to_zero (rs : random_source E) (x : Int) (e : E)
    (hx : x ≠ 0) :
    (integral_minimizer rs x e).1.head? = some x ∧
    (integral_minimizer rs x e).1.getLast? = some 0 ∧
    2 ≤ (integral_minimizer rs x e).1.length ∧
    List.Chain' (fun a b : Int => b.natAbs ≤ a.natAbs) (integral_minimizer rs x e).1 := by
  obtain ⟨_, _, _, h4, h5⟩ := integral_minimizer_loop_spec rs x.natAbs x e (le_refl _)
  have hhead := h4 hx
  simp only [integral_minimizer]
  cases hl : (integral_minimizer_loop rs x e).1 with
  | nil => rw [hl] at hhead; simp at hhead
  | cons y l =>
    rw [hl] at hhead h5
    simp only [List.head?_cons, Option.some.injEq] at hhead
    subst hhead
    refine ⟨by simp, ?_, by simp, h5⟩
    rw [List.getLast?_append]
    simp

/-- Witness of C4 at `x = -7` with the counting source. -/
theorem integral_minimizer_shrinks_to_zero_witness :
    (-7 : Int) ≠ 0 ∧
    (integral_minimizer counting_source (-7) 0).1.head? = some (-7) ∧
    (integral_minimizer counting_source (-7) 0).1.getLast? = some 0 ∧
    2 ≤ (integral_minimizer counting_source (-7) 0).1.length ∧
    List.Chain' (fun a b : Int => b.natAbs ≤ a.natAbs)
      (integral_minimizer counting_source (-7) 0).1 :=
  ⟨by decide, integral_minimizer_shrinks_to_zero counting_source (-7) 0 (by decide)⟩

/-- The sizes the container minimizer takes from the integral minimizer lie
between 0 and the size of the container. -/
theorem integral_minimizer_of_size (rs : random_source E) (n : Nat) (e : E) :
    ∀ y ∈ (integral_minimizer rs (n : Int) e).1, 0 ≤ y ∧ y.toNat ≤ n := by
  obtain ⟨h1, _, h3, _, _⟩ := integral_minimizer_loop_spec rs n (n : Int) e (by simp)
  intro y hy
  simp only [integral_minimizer, List.mem_append, List.mem_singleton] at hy
  rcases hy with hy | rfl
  · have hy0 := h3 (Int.natCast_nonneg n) y hy
    have := h1 y hy
    simp only [Int.natAbs_ofNat] at this
    exact ⟨hy0, by omega⟩
  · simp

theorem integral_minimizer_head_of_size (rs : random_source E) (n : Nat) (e : E) :
    (integral_minimizer rs (n : Int) e).1.head? = some (n : Int) := by
  by_cases hn : (n : Int) = 0
  · rw [hn]
    simp [integral_minimizer, integral_minimizer_loop_zero]
  · have h := (integral_minimizer_loop_spec rs n (n : Int) e (by simp)).2.2.2.1 hn
    simp only [integral_minimizer]
    cases hl : (integral_minimizer_loop rs (n : Int) e).1 with
    | nil => rw [hl] at h; simp at h
    | cons y l => rw [hl] at h; simpa using h

theorem integral_minimizer_getLast (rs : random_source E) (x : Int) (e : E) :
    (integral_minimizer rs x e).1.getLast? = some 0 := by
  simp [integral_minimizer, List.getLast?_append]

theorem integral_minimizer_chain (rs : random_source E) (x : Int) (e : E) :
    List.Chain' (fun a b : Int => b.natAbs ≤ a.natAbs) (integral_minimizer rs x e).1 :=
  (integral_minimizer_loop_spec rs x.natAbs x e (le_refl _)).2.2.2.2

theorem container_minimizer_loop_eq_map {β : Type} (x : List β) (ns : List Int) :
    container_minimizer_loop x ns = ns.map (fun n => x.take n.toNat) := by
  induction ns with
  | nil => rfl
  | cons n ns ih => simp [container_minimizer_loop, ih]

/-- C5: for every container `x`, the empty one included, and every choice of
the random divisors, the sequence of the container minimizer is not empty, its
first element has the size of `x`, its last element has size 0, and the size
does not increase from an element to the next. -/
theorem container_minimizer_sizes {β : Type} (rs : random_source E) (x : List β) (e : E) :
    (container_minimizer rs x e).1 ≠ [] ∧
    (container_minimizer rs x e).1.head?.map List.length = some x.length ∧
    (container_minimizer rs x e).1.getLast?.map List.length = some 0 ∧
    List.Chain' (fun a b : List β => b.length ≤ a.length) (container_minimizer rs x e).1 := by
  simp only [container_minimizer, container_minimizer_loop_eq_map]
  refine ⟨?_, ?_, ?_, ?_⟩
  · simp [integral_minimizer]
  · rw [List.head?_map, integral_minimizer_head_of_size]
    simp
  · rw [List.getLast?_map, integral_minimizer_getLast]
    simp
  · rw [List.chain'_map]
    have hc := List.Chain'.iff_mem.1 (integral_minimizer_chain rs (x.length : Int) e)
    refine hc.imp ?_
    rintro a b ⟨ha, hb, hab⟩
    have ha0 := integral_minimizer_of_size rs x.length e a ha
    have hb0 := integral_minimizer_of_size rs x.length e b hb
    simp only [List.length_take]
    omega

/-- C6: for every container `x` and every choice of the random divisors, the
container minimizer returns the sequence of the integral minimizer for the
size of `x` with each size `n` replaced by the first `n` elements of `x`: the
candidate for `n` has `n` elements and is a prefix of `x`, and the first
candidate is `x` itself. -/
theorem container_minimizer_prefixes {β : Type} (rs : random_source E) (x : List β) (e : E) :
    (container_minimizer rs x e).1 =
      (integral_minimizer rs (x.length : Int) e).1.map (fun n => x.take n.toNat) ∧
    (container_minimizer rs x e).1.length = (integral_minimizer rs (x.length : Int) e).1.length ∧
    (∀ n ∈ (integral_minimizer rs (x.length : Int) e).1,
      ((x.take n.toNat).length : Int) = n ∧ x.take n.toNat <+: x) ∧
    (container_minimizer rs x e).1.head? = some x ∧
    (∀ y ∈ (container_minimizer rs x e).1, y <+: x) := by
  have hmap : (container_minimizer rs x e).1 =
      (integral_minimizer rs (x.length : Int) e).1.map (fun n => x.take n.toNat) := by
    simp only [container_minimizer, container_minimizer_loop_eq_map]
  refine ⟨hmap, ?_, ?_, ?_, ?_⟩
  · rw [hmap, List.length_map]
  · intro n hn
    have := integral_minimizer_of_size rs x.length e n hn
    refine ⟨?_, List.take_prefix _ _⟩
    simp only [List.length_take]
    omega
  · rw [hmap, List.head?_map, integral_minimizer_head_of_size]
    simp
  · intro y hy
    rw [hmap] at hy
    obtain ⟨n, _, rfl⟩ := List.mem_map.1 hy
    exact List.take_prefix _ _

end minimizer_theorems

/-! ## The run loop `go` -/

section go_theorems

variable {E α : Type}

theorem again_iff (conf : qc_config) :
    conf.again = true ↔ conf.n_tests < conf.max_tests ∧ conf.n_discards < conf.max_discards := by
  simp [qc_config.again]

theorem try_block_of_candidates (test : predicate E α) (b : binding E α)
    (bs : List (binding E α)) (conf : qc_config) (out : List (message α)) (e e1 e2 : E)
    (c : List α) (cs : List (List α)) (hc : b.candidates e = (some c, e1))
    (hcs : candidates_all bs e1 = (some cs, e2)) :
    try_block test b bs conf out e = step test conf c cs out e2 := by
  simp [try_block, hc, hcs]

/-- The loop of `go` ends at once when the budget is exhausted or `r` is
`TEST_FAILURE`. -/
theorem go_loop_of_stop (test : predicate E α) (b : binding E α) (bs : List (binding E α))
    (fuel : Nat) (r : state) (conf : qc_config) (out : List (message α)) (e : E)
    (h : ¬ (conf.again = true ∧ r ≠ TEST_FAILURE)) :
    go_loop test b bs fuel r conf out e = some (Result.value r, conf, out, e) := by
  cases fuel <;> simp only [go_loop, if_neg h]

/-- The loop of `go` after an iteration that yields an outcome. -/
theorem go_loop_of_iteration (test : predicate E α) (b : binding E α)
    (bs : List (binding E α)) (fuel : Nat) (r r1 : state) (conf conf1 : qc_config)
    (out out1 : List (message α)) (e e1 : E)
    (h : conf.again = true ∧ r ≠ TEST_FAILURE)
    (hit : iteration test b bs conf out e = (Result.value r1, conf1, out1, e1)) :
    go_loop test b bs (fuel + 1) r conf out e = go_loop test b bs fuel r1 conf1 out1 e1 := by
  simp only [go_loop, if_pos h, hit]

/-- On a predicate that fails on every input, `step` walks down to the last
candidates and writes one report there. -/
theorem step_of_always_failure (test : predicate E α) (conf : qc_config)
    (hall : ∀ xs e, (test xs e).1 = some TEST_FAILURE) (c : List α) :
    ∀ (cs : List (List α)) (out : List (message α)) (e : E), c ≠ [] → (∀ s ∈ cs, s ≠ []) →
      ∃ args e1, step test conf c cs out e =
        (Result.value TEST_FAILURE, out ++ [failure conf args], e1) := by
  induction c with
  | nil => intro cs out e h; exact absurd rfl h
  | cons x c ih =>
    intro cs out e _ hcs
    obtain ⟨ys, hys⟩ := data_all_of_ne_nil cs hcs
    rcases ht : test (x :: ys) e with ⟨t0, e1⟩
    have h0 := hall (x :: ys) e
    rw [ht] at h0
    simp only at h0
    subst h0
    by_cases hr : reducible (x :: c) cs = true
    · have hlen := (reducible_iff _ _).1 hr
      obtain ⟨args, e2, hin⟩ := ih (cs.map reduce) out e1
        (by
          have := hlen (x :: c) (List.mem_cons_self _ _)
          intro hnil
          rw [hnil] at this
          simp at this)
        (by
          intro s hs
          obtain ⟨s0, hs0, rfl⟩ := List.mem_map.1 hs
          have := hlen s0 (List.mem_cons_of_mem _ hs0)
          apply List.length_pos.1
          simp only [reduce, List.length_tail]
          omega)
      refine ⟨args, e2, ?_⟩
      rw [step_of_failure_reducible test conf x c cs ys out _ e e1 e2 TEST_FAILURE hys ht hr hin]
      simp
    · exact ⟨x :: ys, e1, step_of_failure_bottom test conf x c cs ys out e e1 hys ht
        (by simpa using hr)⟩

/-- C7: for every predicate that returns `TEST_FAILURE` on every input and
every configuration with `n_tests < max_tests` and `n_discards < max_discards`,
once the parameters' candidate sequences are drawn (non-empty, no fault in
generation or shrinking), `go` returns `TEST_FAILURE` after that one attempt:
it leaves the configuration as it was and adds to the output one
`Falsifiable, after` report, whose input makes the predicate fail. -/
theorem go_of_always_failure (test : predicate E α) (b : binding E α)
    (bs : List (binding E α)) (fuel : Nat) (conf : qc_config) (out : List (message α))
    (e e1 e2 : E) (c : List α) (cs : List (List α))
    (hall : ∀ xs e3, (test xs e3).1 = some TEST_FAILURE)
    (hconf : conf.n_tests < conf.max_tests ∧ conf.n_discards < conf.max_discards)
    (hc : b.candidates e = (some c, e1))
    (hcs : candidates_all bs e1 = (some cs, e2))
    (hne : ∀ s ∈ c :: cs, s ≠ []) :
    ∃ args e3,
      go test b bs (fuel + 1) conf out e =
        some (Result.value TEST_FAILURE, conf, out ++ [failure conf args], e3) ∧
      (∀ e4, (test args e4).1 = some TEST_FAILURE) ∧
      (∀ m ∈ out ++ [failure conf args], m ∉ out →
        ∃ n xs, m = message.falsifiable n xs ∧ ∀ e4, (test xs e4).1 = some TEST_FAILURE) := by
  obtain ⟨args, e3, hstep⟩ := step_of_always_failure test conf hall c cs out e2
    (hne c (List.mem_cons_self _ _)) (fun s hs => hne s (List.mem_cons_of_mem _ hs))
  have hit : iteration test b bs conf out e =
      (Result.value TEST_FAILURE, conf, out ++ [failure conf args], e3) := by
    simp [iteration, attempt, try_block_of_candidates test b bs conf out e e1 e2 c cs hc hcs,
      hstep, account]
  refine ⟨args, e3, ?_, fun e4 => hall args e4, ?_⟩
  · have hloop := go_loop_of_iteration test b bs fuel TEST_NOTHING TEST_FAILURE conf conf out
      (out ++ [failure conf args]) e e3 ⟨(again_iff conf).2 hconf, by decide⟩ hit
    rw [go_loop_of_stop test b bs fuel TEST_FAILURE conf _ e3 (by simp)] at hloop
    simp [go, hloop]
  · intro m hm hmo
    rcases List.mem_append.1 hm with h | h
    · exact absurd h hmo
    · rw [List.mem_singleton] at h
      exact ⟨_, args, h, fun e4 => hall args e4⟩

theorem integral_binding_candidates (rs : random_source E) (lo hi : Int) (e : E) :
    (integral_binding rs lo hi).candidates e =
      (some (integral_minimizer rs (rs.uniform_int lo hi e).1 (rs.uniform_int lo hi e).2).1,
        (integral_minimizer rs (rs.uniform_int lo hi e).1 (rs.uniform_int lo hi e).2).2) := by
  rfl

theorem integral_minimizer_ne_nil (rs : random_source E) (x : Int) (e : E) :
    (integral_minimizer rs x e).1 ≠ [] := by
  simp [integral_minimizer]

/-- Witness of C7: the predicate `return false;` over one `int` with the
default configuration (`max_tests = 128`). -/
theorem go_of_always_failure_witness :
    (qc_config.default.n_tests < qc_config.default.max_tests ∧
      qc_config.default.n_discards < qc_config.default.max_discards) ∧
    ∃ args e3,
      go never_holds (integral_binding counting_source (-2147483648) 2147483647) []
          (0 + 1) qc_config.default [] 0 =
        some (Result.value TEST_FAILURE, qc_config.default,
          [] ++ [failure qc_config.default args], e3) ∧
      (∀ e4, ((never_holds : predicate Nat Int) args e4).1 = some TEST_FAILURE) ∧
      (∀ m ∈ [] ++ [failure qc_config.default args], m ∉ ([] : List (message Int)) →
        ∃ n xs, m = message.falsifiable n xs ∧
          ∀ e4, ((never_holds : predicate Nat Int) xs e4).1 = some TEST_FAILURE) :=
  ⟨by decide,
    go_of_always_failure never_holds
      (integral_binding counting_source (-2147483648) 2147483647) [] 0 qc_config.default [] 0
      _ _ _ []
      (fun _ _ => rfl) (by decide)
      (integral_binding_candidates counting_source (-2147483648) 2147483647 0) rfl
      (fun s hs => by
        rw [List.mem_singleton] at hs
        rw [hs]
        exact integral_minimizer_ne_nil _ _ _)⟩

/-- On a predicate that holds on every input, with parameters whose candidate
sequences can always be drawn, the loop of `go` runs until `n_tests` reaches
`max_tests`. -/
theorem go_loop_of_always_success (test : predicate E α) (b : binding E α)
    (bs : List (binding E α))
    (hall : ∀ xs e, (test xs e).1 = some TEST_SUCCESS)
    (hgen : ∀ e, ∃ c e1 cs e2, b.candidates e = (some c, e1) ∧
      candidates_all bs e1 = (some cs, e2) ∧ ∀ s ∈ c :: cs, s ≠ [])
    (k : Nat) :
    ∀ (fuel : Nat) (r : state) (conf : qc_config) (out : List (message α)) (e : E),
      conf.max_tests = conf.n_tests + (k + 1) → conf.max_tests < size_type_mod →
      conf.n_discards < conf.max_discards → r ≠ TEST_FAILURE → k + 1 ≤ fuel →
      ∃ e3, go_loop test b bs fuel r conf out e =
        some (Result.value TEST_SUCCESS, { conf with n_tests := conf.max_tests }, out, e3) := by
  induction k with
  | zero =>
    intro fuel r conf out e hmax hrep hdis hr hfuel
    obtain ⟨fuel, rfl⟩ : ∃ f, fuel = f + 1 := ⟨fuel - 1, by omega⟩
    obtain ⟨c, e1, cs, e2, hc, hcs, hne⟩ := hgen e
    obtain ⟨x, c, ys, rfl, hys, -⟩ := heads_of_pos c cs
      (fun s hs => List.length_pos.2 (hne s hs))
    rcases ht : test (x :: ys) e2 with ⟨t0, e3⟩
    have h0 := hall (x :: ys) e2
    rw [ht] at h0
    simp only at h0
    subst h0
    have hmod : (conf.n_tests + 1) % size_type_mod = conf.n_tests + 1 :=
      Nat.mod_eq_of_lt (by omega)
    have hit : iteration test b bs conf out e =
        (Result.value TEST_SUCCESS, { conf with n_tests := conf.n_tests + 1 }, out, e3) := by
      simp [iteration, attempt, try_block_of_candidates test b bs conf out e e1 e2 _ cs hc hcs,
        step_of_not_failure test conf x c cs ys out e2 e3 TEST_SUCCESS hys ht (by decide),
        account, hmod]
    refine ⟨e3, ?_⟩
    rw [go_loop_of_iteration test b bs fuel r TEST_SUCCESS conf _ out out e e3
      ⟨(again_iff conf).2 ⟨by omega, hdis⟩, hr⟩ hit]
    rw [go_loop_of_stop _ _ _ _ _ _ _ _ (by simp [again_iff]; omega)]
    simp [hmax]
  | succ k ih =>
    intro fuel r conf out e hmax hrep hdis hr hfuel
    obtain ⟨fuel, rfl⟩ : ∃ f, fuel = f + 1 := ⟨fuel - 1, by omega⟩
    obtain ⟨c, e1, cs, e2, hc, hcs, hne⟩ := hgen e
    obtain ⟨x, c, ys, rfl, hys, -⟩ := heads_of_pos c cs
      (fun s hs => List.length_pos.2 (hne s hs))
    rcases ht : test (x :: ys) e2 with ⟨t0, e3⟩
    have h0 := hall (x :: ys) e2
    rw [ht] at h0
    simp only at h0
    subst h0
    have hmod : (conf.n_tests + 1) % size_type_mod = conf.n_tests + 1 :=
      Nat.mod_eq_of_lt (by omega)
    have hit : iteration test b bs conf out e =
        (Result.value TEST_SUCCESS, { conf with n_tests := conf.n_tests + 1 }, out, e3) := by
      simp [iteration, attempt, try_block_of_candidates test b bs conf out e e1 e2 _ cs hc hcs,
        step_of_not_failure test conf x c cs ys out e2 e3 TEST_SUCCESS hys ht (by decide),
        account, hmod]
    rw [go_loop_of_iteration test b bs fuel r TEST_SUCCESS conf _ out out e e3
      ⟨(again_iff conf).2 ⟨by omega, hdis⟩, hr⟩ hit]
    obtain ⟨e4, h4⟩ := ih fuel TEST_SUCCESS { conf with n_tests := conf.n_tests + 1 } out e3
      (by simp only; omega) hrep hdis (by decide) (by omega)
    exact ⟨e4, h4⟩

/-- C8: for every predicate that returns `TEST_SUCCESS` on every input (with
parameters whose candidate sequences can always be drawn) and every
configuration with `n_tests = 0`, `n_discards = 0`, `max_tests = m > 0` and
`max_discards > 0`, `go` returns `TEST_SUCCESS` with `n_tests` equal to `m` and
`n_discards` equal to 0, as soon as its loop is given `m` iterations. -/
theorem go_of_always_success (test : predicate E α) (b : binding E α)
    (bs : List (binding E α)) (m fuel : Nat) (conf : qc_config) (out : List (message α))
    (e : E)
    (hall : ∀ xs e1, (test xs e1).1 = some TEST_SUCCESS)
    (hgen : ∀ e1, ∃ c e2 cs e3, b.candidates e1 = (some c, e2) ∧
      candidates_all bs e2 = (some cs, e3) ∧ ∀ s ∈ c :: cs, s ≠ [])
    (htests : conf.n_tests = 0) (hdiscards : conf.n_discards = 0)
    (hmax : conf.max_tests = m) (hm : 0 < m) (hmd : 0 < conf.max_discards)
    (hrep : m < size_type_mod) (hfuel : m ≤ fuel) :
    ∃ e1, go test b bs fuel conf out e =
      some (Result.value TEST_SUCCESS,
        { n_tests := m, max_tests := m, n_discards := 0, max_discards := conf.max_discards },
        out ++ [message.ok m 0], e1) := by
  obtain ⟨k, rfl⟩ : ∃ k, m = k + 1 := ⟨m - 1, by omega⟩
  obtain ⟨e1, h1⟩ := go_loop_of_always_success test b bs hall hgen k fuel TEST_NOTHING conf
    out e (by omega) (by omega) (by omega) (by decide) hfuel
  refine ⟨e1, ?_⟩
  simp [go, h1, hmax, hdiscards]

/-- Witness of C8 at `m = 50`: the predicate `return true;` over one `int`. -/
theorem go_of_always_success_witness :
    (0 < 50 ∧ 0 < 1024 ∧ 50 < size_type_mod) ∧
    ∃ e1, go always_holds (integral_binding counting_source (-2147483648) 2147483647) []
        50 { n_tests := 0, max_tests := 50, n_discards := 0, max_discards := 1024 } [] 0 =
      some (Result.value TEST_SUCCESS,
        { n_tests := 50, max_tests := 50, n_discards := 0, max_discards := 1024 },
        [] ++ [message.ok 50 0], e1) :=
  ⟨by decide,
    go_of_always_success always_holds
      (integral_binding counting_source (-2147483648) 2147483647) [] 50 50
      { n_tests := 0, max_tests := 50, n_discards := 0, max_discards := 1024 } [] 0
      (fun _ _ => rfl)
      (fun e1 => ⟨_, _, [], _,
        integral_binding_candidates counting_source (-2147483648) 2147483647 e1, rfl,
        fun s hs => by
          rw [List.mem_singleton] at hs
          rw [hs]
          exact integral_minimizer_ne_nil _ _ _⟩)
      rfl rfl rfl (by decide) (by decide) (by decide) (le_refl _)⟩

theorem account_max (r : state) (conf : qc_config) :
    (account r conf).max_tests = conf.max_tests ∧
      (account r conf).max_discards = conf.max_discards := by
  cases r <;> simp [account]

/-- The attempt of `go` yields an outcome or is undefined: its handler leaves
no exception. -/
theorem attempt_ne_fault (test : predicate E α) (b : binding E α) (bs : List (binding E α))
    (conf : qc_config) (out : List (message α)) (e : E) :
    (attempt test b bs conf out e).1 ≠ Result.fault := by
  simp only [attempt]
  rcases try_block test b bs conf out e with ⟨r | _ | _, out1, e1⟩ <;> simp

theorem iteration_max (test : predicate E α) (b : binding E α) (bs : List (binding E α))
    (conf : qc_config) (out : List (message α)) (e : E) :
    (iteration test b bs conf out e).2.1.max_tests = conf.max_tests ∧
      (iteration test b bs conf out e).2.1.max_discards = conf.max_discards := by
  simp only [iteration]
  rcases attempt test b bs conf out e with ⟨r | _ | _, out1, e1⟩
  · exact account_max r conf
  · exact ⟨rfl, rfl⟩
  · exact ⟨rfl, rfl⟩

theorem iteration_ne_fault (test : predicate E α) (b : binding E α) (bs : List (binding E α))
    (conf : qc_config) (out : List (message α)) (e : E) :
    (iteration test b bs conf out e).1 ≠ Result.fault := by
  have h := attempt_ne_fault test b bs conf out e
  simp only [iteration]
  rcases hat : attempt test b bs conf out e with ⟨r | _ | _, out1, e1⟩ <;>
    rw [hat] at h <;> simp at h ⊢

/-- The loop of `go` hands back the limits it was given and never an
exception. -/
theorem go_loop_frame (test : predicate E α) (b : binding E α) (bs : List (binding E α))
    (fuel : Nat) :
    ∀ (r : state) (conf : qc_config) (out : List (message α)) (e : E)
      (res : Result state × qc_config × List (message α) × E),
      go_loop test b bs fuel r conf out e = some res →
        res.2.1.max_tests = conf.max_tests ∧ res.2.1.max_discards = conf.max_discards ∧
          res.1 ≠ Result.fault := by
  induction fuel with
  | zero =>
    intro r conf out e res h
    simp only [go_loop] at h
    split at h
    · simp at h
    · simp only [Option.some.injEq] at h
      subst h
      simp
  | succ fuel ih =>
    intro r conf out e res h
    simp only [go_loop] at h
    split at h
    · have hmax := iteration_max test b bs conf out e
      have hnf := iteration_ne_fault test b bs conf out e
      rcases hit : iteration test b bs conf out e with ⟨r1 | _ | _, conf1, out1, e1⟩
      · rw [hit] at h hmax
        simp only at h hmax
        obtain ⟨h1, h2, h3⟩ := ih r1 conf1 out1 e1 res h
        exact ⟨h1.trans hmax.1, h2.trans hmax.2, h3⟩
      · rw [hit] at hnf
        simp at hnf
      · rw [hit] at h hmax
        simp only [Option.some.injEq] at h hmax
        subst h
        exact ⟨hmax.1, hmax.2, by simp⟩
    · simp only [Option.some.injEq] at h
      subst h
      simp

theorem go_frame (test : predicate E α) (b : binding E α) (bs : List (binding E α))
    (fuel : Nat) (conf : qc_config) (out : List (message α)) (e : E)
    (res : Result state × qc_config × List (message α) × E)
    (h : go test b bs fuel conf out e = some res) :
    res.2.1.max_tests = conf.max_tests ∧ res.2.1.max_discards = conf.max_discards ∧
      res.1 ≠ Result.fault := by
  simp only [go] at h
  rcases hl : go_loop test b bs fuel TEST_NOTHING conf out e with _ | ⟨r | _ | _, conf1, out1, e1⟩
  · rw [hl] at h
    simp at h
  · have hf := go_loop_frame test b bs fuel _ _ _ _ _ hl
    rw [hl] at h
    simp only at h hf
    split at h <;>
    · simp only [Option.some.injEq] at h
      subst h
      exact ⟨hf.1, hf.2.1, by simp⟩
  · have hf := go_loop_frame test b bs fuel _ _ _ _ _ hl
    simp at hf
  · have hf := go_loop_frame test b bs fuel _ _ _ _ _ hl
    rw [hl] at h
    simp only [Option.some.injEq] at h hf
    subst h
    exact ⟨hf.1, hf.2.1, by simp⟩

/-- C9: in an iteration of the loop of `go` (entered with `again()` true, the
limits being values of `size_type`), an attempt whose outcome is
`TEST_SUCCESS` adds exactly 1 to `n_tests` and changes nothing else of the
configuration, one whose outcome is `TEST_DISCARD` adds exactly 1 to
`n_discards` and changes nothing else, and any other outcome leaves the
configuration as it was; and whatever `go` returns, `max_tests` and
`max_discards` are as they were on entry. -/
theorem iteration_accounts (test : predicate E α) (b : binding E α)
    (bs : List (binding E α)) (conf : qc_config) (out : List (message α)) (e : E)
    (hagain : conf.again = true)
    (hrep : conf.max_tests < size_type_mod ∧ conf.max_discards < size_type_mod) :
    ((iteration test b bs conf out e).1 = Result.value TEST_SUCCESS →
      (iteration test b bs conf out e).2.1 = { conf with n_tests := conf.n_tests + 1 }) ∧
    ((iteration test b bs conf out e).1 = Result.value TEST_DISCARD →
      (iteration test b bs conf out e).2.1 = { conf with n_discards := conf.n_discards + 1 }) ∧
    ((iteration test b bs conf out e).1 ≠ Result.value TEST_SUCCESS →
      (iteration test b bs conf out e).1 ≠ Result.value TEST_DISCARD →
      (iteration test b bs conf out e).2.1 = conf) ∧
    (∀ fuel res, go test b bs fuel conf out e = some res →
      res.2.1.max_tests = conf.max_tests ∧ res.2.1.max_discards = conf.max_discards) := by
  obtain ⟨ht, hd⟩ := (again_iff conf).1 hagain
  have hmt : (conf.n_tests + 1) % size_type_mod = conf.n_tests + 1 :=
    Nat.mod_eq_of_lt (by omega)
  have hmd : (conf.n_discards + 1) % size_type_mod = conf.n_discards + 1 :=
    Nat.mod_eq_of_lt (by omega)
  refine ⟨?_, ?_, ?_, ?_⟩
  · simp only [iteration]
    rcases attempt test b bs conf out e with ⟨r | _ | _, out1, e1⟩
    · intro h
      simp only [Result.value.injEq] at h
      subst h
      simp [account, hmt]
    · simp
    · simp
  · simp only [iteration]
    rcases attempt test b bs conf out e with ⟨r | _ | _, out1, e1⟩
    · intro h
      simp only [Result.value.injEq] at h
      subst h
      simp [account, hmd]
    · simp
    · simp
  · simp only [iteration]
    rcases attempt test b bs conf out e with ⟨r | _ | _, out1, e1⟩
    · cases r <;> simp [account]
    · simp
    · simp
  · intro fuel res h
    have := go_frame test b bs fuel conf out e res h
    exact ⟨this.1, this.2.1⟩

/-- Witness of C9: one iteration on the predicate `return true;` with the
default configuration. -/
theorem iteration_accounts_witness :
    qc_config.default.again = true ∧
    (qc_config.default.max_tests < size_type_mod ∧
      qc_config.default.max_discards < size_type_mod) ∧
    (iteration always_holds (constant_binding 5) [] qc_config.default [] ()).2.1 =
      { qc_config.default with n_tests := qc_config.default.n_tests + 1 } :=
  ⟨by decide, by decide,
    (iteration_accounts always_holds (constant_binding 5) [] qc_config.default [] ()
      (by decide) (by decide)).1 (by decide)⟩

/-- An exception that leaves `step` leaves it before anything is written. -/
theorem step_fault_writes_nothing (test : predicate E α) (conf : qc_config) (c : List α) :
    ∀ (cs : List (List α)) (out : List (message α)) (e : E),
      (step test conf c cs out e).1 = Result.fault → (step test conf c cs out e).2.1 = out := by
  induction c with
  | nil => intro cs out e h; simp [step] at h
  | cons x c ih =>
    intro cs out e h
    simp only [step] at h ⊢
    rcases hys : data_all cs with _ | ys
    · rw [hys] at h
    · rw [hys] at h
      simp only at h ⊢
      rcases ht : test (x :: ys) e with ⟨_ | r0, e1⟩
      · simp
      · rw [ht] at h
        simp only at h ⊢
        by_cases hr0 : r0 = TEST_FAILURE
        · by_cases hr : reducible (x :: c) cs = true
          · have hin := ih (cs.map reduce) out e1
            rcases hi : step test conf c (cs.map reduce) out e1 with ⟨r1 | _ | _, out2, e2⟩
            · rw [hi] at h
              simp only [if_pos hr0, if_pos hr] at h
              split at h <;> simp at h
            · rw [hi] at hin
              simp only [if_pos hr0, if_pos hr]
              exact hin rfl
            · rw [hi] at h
              simp [hr0, hr] at h
          · simp [hr0, hr] at h
        · simp [hr0] at h

theorem try_block_fault_writes_nothing (test : predicate E α) (b : binding E α)
    (bs : List (binding E α)) (conf : qc_config) (out : List (message α)) (e : E)
    (h : (try_block test b bs conf out e).1 = Result.fault) :
    (try_block test b bs conf out e).2.1 = out := by
  simp only [try_block] at h ⊢
  rcases hc : b.candidates e with ⟨_ | c, e1⟩
  · rfl
  · rw [hc] at h
    simp only at h ⊢
    rcases hcs : candidates_all bs e1 with ⟨_ | cs, e2⟩
    · rfl
    · rw [hcs] at h
      exact step_fault_writes_nothing test conf c cs out e2 h

/-- C10: if the `try` block of an attempt of `go` (the generation and the
shrinking of the parameters, then the evaluation of the predicate in `step`)
raises an exception, the loop ends with that attempt: nothing but the line
`Failed, caught exception after N tests` with `N = n_tests + 1` is written,
the configuration is as before the attempt, and `go` returns `TEST_FAILURE`;
no run of `go` ends in an exception. -/
theorem go_of_fault (test : predicate E α) (b : binding E α) (bs : List (binding E α))
    (fuel : Nat) (r : state) (conf : qc_config) (out out1 : List (message α)) (e e1 : E)
    (hr : r ≠ TEST_FAILURE)
    (hconf : conf.n_tests < conf.max_tests ∧ conf.n_discards < conf.max_discards)
    (hrep : conf.max_tests < size_type_mod)
    (hfault : try_block test b bs conf out e = (Result.fault, out1, e1)) :
    go_loop test b bs (fuel + 1) r conf out e =
      some (Result.value TEST_FAILURE, conf, out ++ [message.caught (conf.n_tests + 1)], e1) ∧
    go test b bs (fuel + 1) conf out e =
      some (Result.value TEST_FAILURE, conf, out ++ [message.caught (conf.n_tests + 1)], e1) ∧
    (∀ fuel1 conf1 out2 e2 res,
      go test b bs fuel1 conf1 out2 e2 = some res → res.1 ≠ Result.fault) := by
  have hout : out1 = out := by
    have := try_block_fault_writes_nothing test b bs conf out e (by rw [hfault])
    rw [hfault] at this
    exact this
  subst hout
  have hmod : (conf.n_tests + 1) % size_type_mod = conf.n_tests + 1 :=
    Nat.mod_eq_of_lt (by omega)
  have hit : iteration test b bs conf out1 e =
      (Result.value TEST_FAILURE, conf, out1 ++ [message.caught (conf.n_tests + 1)], e1) := by
    simp [iteration, attempt, hfault, account, caught_message, hmod]
  have hloop : ∀ r1, r1 ≠ TEST_FAILURE → go_loop test b bs (fuel + 1) r1 conf out1 e =
      some (Result.value TEST_FAILURE, conf,
        out1 ++ [message.caught (conf.n_tests + 1)], e1) := by
    intro r1 hr1
    rw [go_loop_of_iteration test b bs fuel r1 TEST_FAILURE conf conf out1 _ e e1
      ⟨(again_iff conf).2 hconf, hr1⟩ hit]
    exact go_loop_of_stop _ _ _ _ _ _ _ _ (by simp)
  refine ⟨hloop r hr, ?_, ?_⟩
  · simp [go, hloop TEST_NOTHING (by decide)]
  · intro fuel1 conf1 out2 e2 res h
    exact (go_frame test b bs fuel1 conf1 out2 e2 res h).2.2

/-- Witness of C10: the generator returns 0 and the predicate throws on 0. -/
theorem go_of_fault_witness :
    (qc_config.default.n_tests < qc_config.default.max_tests ∧
      qc_config.default.n_discards < qc_config.default.max_discards) ∧
    try_block throws_at_zero (constant_binding 0) [] qc_config.default [] () =
      (Result.fault, [], ()) ∧
    go throws_at_zero (constant_binding 0) [] (0 + 1) qc_config.default [] () =
      some (Result.value TEST_FAILURE, qc_config.default,
        [] ++ [message.caught (qc_config.default.n_tests + 1)], ()) :=
  ⟨by decide, by decide,
    (go_of_fault throws_at_zero (constant_binding 0) [] 0 TEST_NOTHING qc_config.default
      [] [] () () (by decide) (by decide) (by decide) (by decide)).2.1⟩

/-- On non-empty sequences `step` dereferences no empty list. -/
theorem step_ne_undefined (test : predicate E α) (conf : qc_config) (c : List α) :
    ∀ (cs : List (List α)) (out : List (message α)) (e : E), c ≠ [] → (∀ s ∈ cs, s ≠ []) →
      (step test conf c cs out e).1 ≠ Result.undefined := by
  induction c with
  | nil => intro cs out e h; exact absurd rfl h
  | cons x c ih =>
    intro cs out e _ hcs
    obtain ⟨ys, hys⟩ := data_all_of_ne_nil cs hcs
    simp only [step, hys]
    rcases test (x :: ys) e with ⟨_ | r0, e1⟩
    · simp
    · by_cases hr0 : r0 = TEST_FAILURE
      · by_cases hr : reducible (x :: c) cs = true
        · have hlen := (reducible_iff _ _).1 hr
          have hin := ih (cs.map reduce) out e1
            (by
              have := hlen (x :: c) (List.mem_cons_self _ _)
              intro hnil
              rw [hnil] at this
              simp at this)
            (by
              intro s hs
              obtain ⟨s0, hs0, rfl⟩ := List.mem_map.1 hs
              have := hlen s0 (List.mem_cons_of_mem _ hs0)
              apply List.length_pos.1
              simp only [reduce, List.length_tail]
              omega)
          simp only [if_pos hr0, if_pos hr]
          rcases hi : step test conf c (cs.map reduce) out e1 with ⟨r1 | _ | _, out2, e2⟩
          · simp only
            split <;> simp
          · simp
          · rw [hi] at hin
            simp at hin
        · simp [hr0, hr]
      · simp [hr0]

/-- The outcome `step` returns is the one the predicate returned on the
heads. -/
theorem step_value_eq (test : predicate E α) (conf : qc_config)
    (x : α) (c : List α) (cs : List (List α)) (ys : List α)
    (out : List (message α)) (e : E) (r : state) (hys : data_all cs = some ys)
    (h : (step test conf (x :: c) cs out e).1 = Result.value r) :
    (test (x :: ys) e).1 = some r := by
  simp only [step, hys] at h
  rcases ht : test (x :: ys) e with ⟨_ | r0, e1⟩
  · rw [ht] at h
    simp at h
  · rw [ht] at h
    simp only at h ⊢
    by_cases hr0 : r0 = TEST_FAILURE
    · by_cases hr : reducible (x :: c) cs = true
      · simp only [if_pos hr0, if_pos hr] at h
        rcases hi : step test conf c (cs.map reduce) out e1 with ⟨r1 | _ | _, out2, e2⟩
        · rw [hi] at h
          simp only at h
          split at h <;> simp at h <;> rw [h]
        · rw [hi] at h
          simp at h
        · rw [hi] at h
          simp at h
      · simp [hr0, hr] at h
        rw [← h, hr0]
    · simp [hr0] at h
      rw [h]

/-- An iteration of the loop of `go` on parameters whose minimizers return no
empty list: it yields an outcome, one the predicate returned or
`TEST_FAILURE`, and the configuration accounted for it. -/
theorem iteration_value (test : predicate E α) (b : binding E α) (bs : List (binding E α))
    (conf : qc_config) (out : List (message α)) (e : E)
    (hpred : ∀ xs e1, (test xs e1).1 ≠ some TEST_NOTHING)
    (hne : ∀ e1 c e2, b.candidates e1 = (some c, e2) → c ≠ [])
    (hnes : ∀ e1 cs e2, candidates_all bs e1 = (some cs, e2) → ∀ s ∈ cs, s ≠ []) :
    ∃ r1 out1 e1, iteration test b bs conf out e = (Result.value r1, account r1 conf, out1, e1) ∧
      r1 ≠ TEST_NOTHING := by
  simp only [iteration, attempt, try_block]
  rcases hc : b.candidates e with ⟨_ | c, e1⟩
  · exact ⟨TEST_FAILURE, _, _, rfl, by decide⟩
  · simp only
    rcases hcs : candidates_all bs e1 with ⟨_ | cs, e2⟩
    · exact ⟨TEST_FAILURE, _, _, rfl, by decide⟩
    · simp only
      have hc0 := hne e c e1 hc
      have hcs0 := hnes e1 cs e2 hcs
      have hu := step_ne_undefined test conf c cs out e2 hc0 hcs0
      rcases hst : step test conf c cs out e2 with ⟨r | _ | _, out1, e3⟩
      · refine ⟨r, out1, e3, rfl, ?_⟩
        cases c with
        | nil => exact absurd rfl hc0
        | cons x c =>
          obtain ⟨ys, hys⟩ := data_all_of_ne_nil cs hcs0
          have := step_value_eq test conf x c cs ys out e2 r hys (by rw [hst])
          intro hr
          rw [hr] at this
          exact hpred _ _ this
      · exact ⟨TEST_FAILURE, _, _, rfl, by decide⟩
      · rw [hst] at hu
        simp at hu

/-- The loop of `go` ends within as many iterations as the two budgets leave
together. -/
theorem go_loop_terminates (test : predicate E α) (b : binding E α) (bs : List (binding E α))
    (hpred : ∀ xs e1, (test xs e1).1 ≠ some TEST_NOTHING)
    (hne : ∀ e1 c e2, b.candidates e1 = (some c, e2) → c ≠ [])
    (hnes : ∀ e1 cs e2, candidates_all bs e1 = (some cs, e2) → ∀ s ∈ cs, s ≠ [])
    (fuel : Nat) :
    ∀ (r : state) (conf : qc_config) (out : List (message α)) (e : E),
      conf.max_tests < size_type_mod → conf.max_discards < size_type_mod →
      (conf.max_tests - conf.n_tests) + (conf.max_discards - conf.n_discards) ≤ fuel →
      ∃ r1 conf1 out1 e1,
        go_loop test b bs fuel r conf out e = some (Result.value r1, conf1, out1, e1) := by
  induction fuel with
  | zero =>
    intro r conf out e _ _ hfuel
    exact ⟨r, conf, out, e, go_loop_of_stop _ _ _ _ _ _ _ _ (by
      rw [again_iff]
      omega)⟩
  | succ fuel ih =>
    intro r conf out e hmt hmd hfuel
    by_cases hcond : conf.again = true ∧ r ≠ TEST_FAILURE
    · obtain ⟨ht, hd⟩ := (again_iff conf).1 hcond.1
      obtain ⟨r1, out1, e1, hit, hr1⟩ := iteration_value test b bs conf out e hpred hne hnes
      rw [go_loop_of_iteration test b bs fuel r r1 conf _ out out1 e e1 hcond hit]
      cases r1 with
      | TEST_FAILURE =>
        exact ⟨_, _, _, _, go_loop_of_stop _ _ _ _ _ _ _ _ (by simp)⟩
      | TEST_SUCCESS =>
        apply ih
        · simpa [account] using hmt
        · simpa [account] using hmd
        · simp only [account]
          rw [Nat.mod_eq_of_lt (by omega)]
          omega
      | TEST_DISCARD =>
        apply ih
        · simpa [account] using hmt
        · simpa [account] using hmd
        · simp only [account]
          rw [Nat.mod_eq_of_lt (by omega)]
          omega
      | TEST_NOTHING => exact absurd rfl hr1
    · exact ⟨r, conf, out, e, go_loop_of_stop _ _ _ _ _ _ _ _ hcond⟩

/-- C11: for every predicate that returns only `TEST_SUCCESS`, `TEST_DISCARD` or
`TEST_FAILURE` (or throws), on parameters whose minimizers return no empty
list, and every configuration (its limits values of `size_type`), `go` ends
within `(max_tests - n_tests) + (max_discards - n_discards)` iterations of its
loop (truncated subtraction on the initial values): with that much fuel or
more it returns an outcome. -/
theorem go_terminates (test : predicate E α) (b : binding E α) (bs : List (binding E α))
    (fuel : Nat) (conf : qc_config) (out : List (message α)) (e : E)
    (hpred : ∀ xs e1, (test xs e1).1 ≠ some TEST_NOTHING)
    (hne : ∀ e1 c e2, b.candidates e1 = (some c, e2) → c ≠ [])
    (hnes : ∀ e1 cs e2, candidates_all bs e1 = (some cs, e2) → ∀ s ∈ cs, s ≠ [])
    (hmt : conf.max_tests < size_type_mod) (hmd : conf.max_discards < size_type_mod)
    (hfuel : (conf.max_tests - conf.n_tests) + (conf.max_discards - conf.n_discards) ≤ fuel) :
    ∃ r1 conf1 out1 e1,
      go test b bs fuel conf out e = some (Result.value r1, conf1, out1, e1) := by
  obtain ⟨r1, conf1, out1, e1, h⟩ := go_loop_terminates test b bs hpred hne hnes fuel
    TEST_NOTHING conf out e hmt hmd hfuel
  simp only [go, h]
  by_cases hr : r1 = TEST_SUCCESS
  · exact ⟨r1, conf1, out1 ++ [message.ok conf1.n_tests conf1.n_discards], e1, by simp [hr]⟩
  · exact ⟨r1, conf1, out1, e1, by simp [hr]⟩

theorem integral_binding_ne_nil (rs : random_source E) (lo hi : Int) :
    ∀ e1 c e2, (integral_binding rs lo hi).candidates e1 = (some c, e2) → c ≠ [] := by
  intro e1 c e2 h
  rw [integral_binding_candidates] at h
  simp only [Prod.mk.injEq, Option.some.injEq] at h
  rw [← h.1]
  exact integral_minimizer_ne_nil _ _ _

theorem candidates_all_nil_ne_nil :
    ∀ (e1 : E) (cs : List (List α)) (e2 : E),
      candidates_all ([] : List (binding E α)) e1 = (some cs, e2) → ∀ s ∈ cs, s ≠ [] := by
  intro e1 cs e2 h
  simp only [candidates_all, Prod.mk.injEq, Option.some.injEq] at h
  rw [← h.1]
  simp

/-- Witness of C11: the predicate `return true;` over one `int` with
`max_tests = 3` and `max_discards = 2`, on 5 iterations. -/
theorem go_terminates_witness :
    ((3 : Nat) < size_type_mod ∧ (2 : Nat) < size_type_mod ∧ (3 - 0) + (2 - 0) ≤ 5) ∧
    ∃ r1 conf1 out1 e1,
      go always_holds (integral_binding counting_source (-2147483648) 2147483647) [] 5
          { n_tests := 0, max_tests := 3, n_discards := 0, max_discards := 2 } [] 0 =
        some (Result.value r1, conf1, out1, e1) :=
  ⟨by decide,
    go_terminates always_holds (integral_binding counting_source (-2147483648) 2147483647) []
      5 { n_tests := 0, max_tests := 3, n_discards := 0, max_discards := 2 } [] 0
      (fun _ _ => by simp [always_holds])
      (integral_binding_ne_nil counting_source (-2147483648) 2147483647)
      candidates_all_nil_ne_nil (by decide) (by decide) (by decide)⟩

/-- C19: for every predicate and every tuple of non-empty candidate sequences
on whose heads the predicate returns an outcome `r` other than `TEST_FAILURE`,
`step` returns `r`, writes nothing and leaves the engine as that one call of
the predicate left it; with the invocations counted, the count goes up by
exactly 1 (no recursive call). -/
theorem step_of_non_failure_heads (test : predicate E α) (conf : qc_config)
    (x : α) (c : List α) (cs : List (List α)) (ys : List α)
    (out : List (message α)) (e : E) (r : state) (k : Nat)
    (hys : data_all cs = some ys)
    (ht : (test (x :: ys) e).1 = some r) (hr : r ≠ TEST_FAILURE) :
    step test conf (x :: c) cs out e = (Result.value r, out, (test (x :: ys) e).2) ∧
    step (counted test) conf (x :: c) cs out (e, k) =
      (Result.value r, out, ((test (x :: ys) e).2, k + 1)) := by
  constructor
  · exact step_of_not_failure test conf x c cs ys out e _ r hys (Prod.ext ht rfl) hr
  · exact step_of_not_failure (counted test) conf x c cs ys out (e, k) _ r hys
      (by simp [counted, ht]) hr

/-- Witness of C19: the predicate returns `TEST_SUCCESS` on the heads
`[0, 0]`. -/
theorem step_of_non_failure_heads_witness :
    data_all [[(0 : Int), 7]] = some [0] ∧
    (all_zero [0, 0] ()).1 = some TEST_SUCCESS ∧
    step all_zero qc_config.default [0, 4] [[0, 7]] [] () =
      (Result.value TEST_SUCCESS, [], (all_zero [0, 0] ()).2) ∧
    step (counted all_zero) qc_config.default [0, 4] [[0, 7]] [] ((), 0) =
      (Result.value TEST_SUCCESS, [], ((all_zero [0, 0] ()).2, 0 + 1)) :=
  ⟨by decide, by decide,
    step_of_non_failure_heads all_zero qc_config.default 0 [4] [[0, 7]] [0] [] ()
      TEST_SUCCESS 0 (by decide) (by decide) (by decide)⟩

/-- What `step` writes comes after what was written before and holds no
summary line. -/
theorem step_output (test : predicate E α) (conf : qc_config) (c : List α) :
    ∀ (cs : List (List α)) (out : List (message α)) (e : E),
      ∃ ext, (step test conf c cs out e).2.1 = out ++ ext ∧
        ∀ m ∈ ext, ∀ n k, m ≠ message.ok n k := by
  induction c with
  | nil => intro cs out e; exact ⟨[], by simp [step], by simp⟩
  | cons x c ih =>
    intro cs out e
    simp only [step]
    rcases data_all cs with _ | ys
    · exact ⟨[], by simp, by simp⟩
    · simp only
      rcases test (x :: ys) e with ⟨_ | r0, e1⟩
      · exact ⟨[], by simp, by simp⟩
      · simp only
        by_cases hr0 : r0 = TEST_FAILURE
        · by_cases hr : reducible (x :: c) cs = true
          · simp only [if_pos hr0, if_pos hr]
            obtain ⟨ext, hext, hno⟩ := ih (cs.map reduce) out e1
            rcases hi : step test conf c (cs.map reduce) out e1 with ⟨r1 | _ | _, out2, e2⟩
            · rw [hi] at hext
              simp only at hext ⊢
              subst hext
              split
              · refine ⟨ext ++ [failure conf (x :: ys)], by simp, ?_⟩
                intro m hm n k
                rcases List.mem_append.1 hm with h | h
                · exact hno m h n k
                · rw [List.mem_singleton] at h
                  rw [h]
                  simp [failure]
              · exact ⟨ext, rfl, hno⟩
            · rw [hi] at hext
              exact ⟨ext, hext, hno⟩
            · rw [hi] at hext
              exact ⟨ext, hext, hno⟩
          · refine ⟨[failure conf (x :: ys)], by simp [hr0, hr], ?_⟩
            intro m hm n k
            rw [List.mem_singleton] at hm
            rw [hm]
            simp [failure]
        · exact ⟨[], by simp [hr0], by simp⟩

theorem iteration_output (test : predicate E α) (b : binding E α) (bs : List (binding E α))
    (conf : qc_config) (out : List (message α)) (e : E) :
    ∃ ext, (iteration test b bs conf out e).2.2.1 = out ++ ext ∧
      ∀ m ∈ ext, ∀ n k, m ≠ message.ok n k := by
  have hcaught : ∀ m ∈ [(caught_message conf : message α)], ∀ n k, m ≠ message.ok n k := by
    intro m hm n k
    rw [List.mem_singleton] at hm
    rw [hm]
    simp [caught_message]
  simp only [iteration, attempt, try_block]
  rcases b.candidates e with ⟨_ | c, e1⟩
  · exact ⟨[caught_message conf], rfl, hcaught⟩
  · simp only
    rcases candidates_all bs e1 with ⟨_ | cs, e2⟩
    · exact ⟨[caught_message conf], rfl, hcaught⟩
    · simp only
      obtain ⟨ext, hext, hno⟩ := step_output test conf c cs out e2
      rcases hst : step test conf c cs out e2 with ⟨r | _ | _, out1, e3⟩
      · rw [hst] at hext
        exact ⟨ext, hext, hno⟩
      · rw [hst] at hext
        simp only at hext ⊢
        subst hext
        refine ⟨ext ++ [caught_message conf], by simp, ?_⟩
        intro m hm n k
        rcases List.mem_append.1 hm with h | h
        · exact hno m h n k
        · exact hcaught m h n k
      · rw [hst] at hext
        exact ⟨ext, hext, hno⟩

/-- What the loop of `go` writes holds no summary line. -/
theorem go_loop_output (test : predicate E α) (b : binding E α) (bs : List (binding E α))
    (fuel : Nat) :
    ∀ (r : state) (conf : qc_config) (out : List (message α)) (e : E)
      (res : Result state × qc_config × List (message α) × E),
      go_loop test b bs fuel r conf out e = some res →
        ∃ ext, res.2.2.1 = out ++ ext ∧ ∀ m ∈ ext, ∀ n k, m ≠ message.ok n k := by
  induction fuel with
  | zero =>
    intro r conf out e res h
    simp only [go_loop] at h
    split at h
    · simp at h
    · simp only [Option.some.injEq] at h
      subst h
      exact ⟨[], by simp, by simp⟩
  | succ fuel ih =>
    intro r conf out e res h
    simp only [go_loop] at h
    split at h
    · obtain ⟨ext, hext, hno⟩ := iteration_output test b bs conf out e
      rcases hit : iteration test b bs conf out e with ⟨r1 | _ | _, conf1, out1, e1⟩
      · rw [hit] at h hext
        simp only at h hext
        subst hext
        obtain ⟨ext2, hext2, hno2⟩ := ih r1 conf1 _ e1 res h
        refine ⟨ext ++ ext2, by rw [hext2, List.append_assoc], ?_⟩
        intro m hm n k
        rcases List.mem_append.1 hm with h1 | h1
        · exact hno m h1 n k
        · exact hno2 m h1 n k
      · rw [hit] at h hext
        simp only [Option.some.injEq] at h hext
        subst h
        exact ⟨ext, hext, hno⟩
      · rw [hit] at h hext
        simp only [Option.some.injEq] at h hext
        subst h
        exact ⟨ext, hext, hno⟩
    · simp only [Option.some.injEq] at h
      subst h
      exact ⟨[], by simp, by simp⟩

/-- C20: whenever `go` returns, what it wrote holds a summary line
`OK, N tests passed, M tests discarded` if and only if it returns
`TEST_SUCCESS`; then that line is the last one written, the only one of its
kind, and `N` and `M` are the final `n_tests` and `n_discards`. -/
theorem go_summary (test : predicate E α) (b : binding E α) (bs : List (binding E α))
    (fuel : Nat) (conf : qc_config) (out : List (message α)) (e : E)
    (res : Result state × qc_config × List (message α) × E)
    (h : go test b bs fuel conf out e = some res) :
    ∃ ext, res.2.2.1 = out ++ ext ∧
      ((∃ n k, message.ok n k ∈ ext) ↔ res.1 = Result.value TEST_SUCCESS) ∧
      (res.1 = Result.value TEST_SUCCESS →
        ∃ pre, ext = pre ++ [message.ok res.2.1.n_tests res.2.1.n_discards] ∧
          ∀ m ∈ pre, ∀ n k, m ≠ message.ok n k) := by
  simp only [go] at h
  rcases hl : go_loop test b bs fuel TEST_NOTHING conf out e with _ | ⟨r | _ | _, conf1, out1, e1⟩
  · rw [hl] at h
    simp at h
  · obtain ⟨ext, hext, hno⟩ := go_loop_output test b bs fuel _ _ _ _ _ hl
    rw [hl] at h
    simp only at h hext
    subst hext
    by_cases hr : r = TEST_SUCCESS
    · simp only [if_pos hr, Option.some.injEq] at h
      subst h
      refine ⟨ext ++ [message.ok conf1.n_tests conf1.n_discards], by simp, ?_, ?_⟩
      · simp only [hr, iff_true]
        exact ⟨conf1.n_tests, conf1.n_discards, by simp⟩
      · intro _
        exact ⟨ext, rfl, hno⟩
    · simp only [if_neg hr, Option.some.injEq] at h
      subst h
      refine ⟨ext, rfl, ?_, ?_⟩
      · simp only [Result.value.injEq, hr, iff_false, not_exists]
        intro n k hmem
        exact hno _ hmem n k rfl
      · intro hs
        simp only [Result.value.injEq] at hs
        exact absurd hs hr
  · obtain ⟨ext, hext, hno⟩ := go_loop_output test b bs fuel _ _ _ _ _ hl
    rw [hl] at h
    simp only [Option.some.injEq] at h hext
    subst h
    refine ⟨ext, hext, ?_, by simp⟩
    simp only [reduceCtorEq, iff_false, not_exists]
    intro n k hmem
    exact hno _ hmem n k rfl
  · obtain ⟨ext, hext, hno⟩ := go_loop_output test b bs fuel _ _ _ _ _ hl
    rw [hl] at h
    simp only [Option.some.injEq] at h hext
    subst h
    refine ⟨ext, hext, ?_, by simp⟩
    simp only [reduceCtorEq, iff_false, not_exists]
    intro n k hmem
    exact hno _ hmem n k rfl

/-- Witness of C20: the run of the predicate `return true;` on a generator
that returns 5, with `max_tests = 2`. -/
theorem go_summary_witness :
    go always_holds (constant_binding 5) [] 2
        { n_tests := 0, max_tests := 2, n_discards := 0, max_discards := 1024 } [] () =
      some (Result.value TEST_SUCCESS,
        { n_tests := 2, max_tests := 2, n_discards := 0, max_discards := 1024 },
        [message.ok 2 0], ()) ∧
    ∃ ext, [message.ok 2 0] = ([] : List (message Int)) ++ ext ∧
      ((∃ n k, message.ok n k ∈ ext) ↔
        (Result.value TEST_SUCCESS : Result state) = Result.value TEST_SUCCESS) ∧
      ((Result.value TEST_SUCCESS : Result state) = Result.value TEST_SUCCESS →
        ∃ pre, ext = pre ++ [message.ok 2 0] ∧ ∀ m ∈ pre, ∀ n k, m ≠ message.ok n k) :=
  ⟨by decide,
    go_summary always_holds (constant_binding 5) [] 2
      { n_tests := 0, max_tests := 2, n_discards := 0, max_discards := 1024 } [] ()
      (Result.value TEST_SUCCESS,
        { n_tests := 2, max_tests := 2, n_discards := 0, max_discards := 1024 },
        [message.ok 2 0], ()) (by decide)⟩

end go_theorems

/-! ## The combinators `frequency` and `oneof` -/

section combinator_theorems

variable {E β : Type}

/-- C12, the code at a failing input: on the list `[(1, a), (1, b), (5, c)]`
(total weight 7) and the draw 2, the running sum reaches 2 at `b`, and
`frequency` returns `c`, the first entry whose own weight is at least 2. -/
theorem frequency_ignores_running_sum :
    frequency_sum [(1, "a"), (1, "b"), (5, "c")] = 7 ∧
    frequency_by_running_sum 2 0 [(1, "a"), (1, "b"), (5, "c")] = some "b" ∧
    frequency (fixed_source 2) [(1, "a"), (1, "b"), (5, "c")] () = (some "c", ()) := by
  decide

/-- C13, the code at a failing input: on the list `[(1, a), (3, b)]` (total
weight 4) the draw 4 lies in the range and no weight is 4 or more, so the scan
ends without a hit and `frequency` throws. -/
theorem frequency_throws_within_range :
    frequency_sum [(1, "a"), (3, "b")] = 4 ∧
    ((fixed_source 4).uniform_int 0 (frequency_sum [(1, "a"), (3, "b")]) ()).1 = 4 ∧
    frequency (fixed_source 4) [(1, "a"), (3, "b")] () = (none, ()) := by
  decide

/-- C14: on the empty weighted list, whatever the state of the random source,
`frequency` draws from `[0, 0]`, scans nothing and throws. -/
theorem frequency_of_empty (rs : random_source E) (e : E) :
    frequency rs ([] : List (Nat × β)) e = (none, (rs.uniform_int 0 0 e).2) := by
  simp [frequency, frequency_scan, frequency_sum]

/-- C15, the code on the list `[(1, a), (3, b)]`: of the 5 draws of the range
`[0, 4]`, 2 give `a`, 2 give `b` and 1 makes `frequency` throw. -/
theorem frequency_fractions :
    ((List.range 5).filter (fun n =>
      decide ((frequency (fixed_source n) [(1, "a"), (3, "b")] ()).1 = some "a"))).length = 2 ∧
    ((List.range 5).filter (fun n =>
      decide ((frequency (fixed_source n) [(1, "a"), (3, "b")] ()).1 = some "b"))).length = 2 ∧
    ((List.range 5).filter (fun n =>
      decide ((frequency (fixed_source n) [(1, "a"), (3, "b")] ()).1 = none))).length = 1 := by
  decide

/-- C16: for every non-empty container and every state of the random source,
`oneof` returns an iterator at the position of the drawn index, which is below
the size: the iterator is not `end()`, it points to the element at the drawn
index, and that element is a member of the container. -/
theorem oneof_member (rs : random_source E) (container : List β) (e : E)
    (hne : container ≠ []) :
    ∃ it x,
      (oneof rs container e).1 = Result.value it ∧
      it = container.drop (rs.uniform_int 0 ((container.length : Int) - 1) e).1.toNat ∧
      (rs.uniform_int 0 ((container.length : Int) - 1) e).1.toNat < container.length ∧
      it ≠ [] ∧
      it.head? = some x ∧
      container[(rs.uniform_int 0 ((container.length : Int) - 1) e).1.toNat]? = some x ∧
      x ∈ container := by
  have hlen : 0 < container.length := List.length_pos.2 hne
  have hrange := rs.uniform_int_range 0 ((container.length : Int) - 1) e (by omega)
  have hlt : (rs.uniform_int 0 ((container.length : Int) - 1) e).1.toNat < container.length := by
    omega
  refine ⟨container.drop (rs.uniform_int 0 ((container.length : Int) - 1) e).1.toNat,
    container[(rs.uniform_int 0 ((container.length : Int) - 1) e).1.toNat], ?_, rfl, hlt,
    ?_, ?_, ?_, ?_⟩
  · have hd : ¬ ((container.length : Int) - 1 < 0) := by omega
    simp [oneof, oneof_range, distance, hd]
  · intro h
    have := congrArg List.length h
    simp only [List.length_drop, List.length_nil] at this
    omega
  · rw [List.head?_drop]
    exact List.getElem?_eq_getElem hlt
  · exact List.getElem?_eq_getElem hlt
  · exact List.getElem_mem _

/-- Witness of C16: the list `[10, 20, 30]` with the draw 1. -/
theorem oneof_member_witness :
    ([10, 20, 30] : List Nat) ≠ [] ∧
    ∃ it x,
      (oneof (fixed_source 1) [10, 20, 30] ()).1 = Result.value it ∧
      it = [10, 20, 30].drop
        ((fixed_source 1).uniform_int 0 ((([10, 20, 30] : List Nat).length : Int) - 1) ()).1.toNat ∧
      ((fixed_source 1).uniform_int 0 ((([10, 20, 30] : List Nat).length : Int) - 1) ()).1.toNat
        < ([10, 20, 30] : List Nat).length ∧
      it ≠ [] ∧
      it.head? = some x ∧
      ([10, 20, 30] : List Nat)[((fixed_source 1).uniform_int 0
        ((([10, 20, 30] : List Nat).length : Int) - 1) ()).1.toNat]? = some x ∧
      x ∈ ([10, 20, 30] : List Nat) :=
  ⟨by decide, oneof_member (fixed_source 1) [10, 20, 30] () (by decide)⟩

end combinator_theorems

/-! ## The minimizer of reals -/

section real_minimizer_theorems

variable {E : Type}

theorem vel_bounds (d : ℚ) : 20 ≤ (vel d).1 ∧ (vel d).1 ≤ (vel d).2 := by
  unfold vel
  split
  · norm_num
  · split <;> norm_num

/-- Every divisor the loop draws is at least 20. -/
theorem draw_ge (rs : real_source E) (b : ℚ) (e : E) :
    20 ≤ (rs.uniform_real (vel |b|).1 (vel |b|).2 e).1 :=
  le_trans (vel_bounds |b|).1 (rs.uniform_real_range _ _ e (vel_bounds |b|).2).1

theorem abs_div_le (b r : ℚ) (hr : 20 ≤ r) : |b / r| ≤ |b| := by
  rw [abs_div, abs_of_pos (by linarith : (0 : ℚ) < r)]
  exact div_le_self (abs_nonneg b) (by linarith)

theorem real_minimizer_loop_of_gt (rs : real_source E) (b : ℚ) (e : E) (h : 1e-20 < |b|) :
    real_minimizer_loop rs b e =
      (b / (rs.uniform_real (vel |b|).1 (vel |b|).2 e).1 ::
          (real_minimizer_loop rs (b / (rs.uniform_real (vel |b|).1 (vel |b|).2 e).1)
            (rs.uniform_real (vel |b|).1 (vel |b|).2 e).2).1,
        (real_minimizer_loop rs (b / (rs.uniform_real (vel |b|).1 (vel |b|).2 e).1)
          (rs.uniform_real (vel |b|).1 (vel |b|).2 e).2).2) := by
  rw [real_minimizer_loop]
  simp only [if_pos h]

theorem real_minimizer_loop_of_le (rs : real_source E) (b : ℚ) (e : E) (h : ¬ 1e-20 < |b|) :
    real_minimizer_loop rs b e =
      ([b / (rs.uniform_real (vel |b|).1 (vel |b|).2 e).1],
        (rs.uniform_real (vel |b|).1 (vel |b|).2 e).2) := by
  rw [real_minimizer_loop]
  simp only [if_neg h]

/-- The first value the loop pushes is the quotient of `b` by the divisor drawn
from the interval of the magnitude of `b`. -/
theorem real_minimizer_loop_head (rs : real_source E) (b : ℚ) (e : E) :
    (real_minimizer_loop rs b e).1.head? =
      some (b / (rs.uniform_real (vel |b|).1 (vel |b|).2 e).1) := by
  by_cases h : 1e-20 < |b|
  · rw [real_minimizer_loop_of_gt rs b e h]
    rfl
  · rw [real_minimizer_loop_of_le rs b e h]
    rfl

/-- From `b` on, no value the loop pushes is larger in absolute value than the
one before it. -/
theorem real_minimizer_loop_chain (rs : real_source E) (b : ℚ) (e : E) :
    List.Chain' (fun p q : ℚ => |q| ≤ |p|) (b :: (real_minimizer_loop rs b e).1) := by
  induction b, e using real_minimizer_loop.induct rs with
  | case1 b e h ih =>
    rw [real_minimizer_loop_of_gt rs b e h]
    exact List.Chain'.cons (abs_div_le b _ (draw_ge rs b e)) ih
  | case2 b e h =>
    rw [real_minimizer_loop_of_le rs b e h]
    exact List.Chain'.cons (abs_div_le b _ (draw_ge rs b e)) (List.chain'_singleton _)

theorem real_minimizer_loop_ne_nil (rs : real_source E) (b : ℚ) (e : E) :
    (real_minimizer_loop rs b e).1 ≠ [] := by
  intro h
  have := real_minimizer_loop_head rs b e
  rw [h] at this
  simp at this

/-- C17: for every finite `x` and every choice of the divisors from the
intervals of `vel`, in exact arithmetic, the sequence of the real minimizer is
made of finite values, starts with `x`, ends with 0, and no element after the
first is larger in absolute value than the element before it. -/
theorem real_minimizer_shrinks_to_zero (rs : real_source E) (x : ℚ) (e : E) :
    ∃ l : List ℚ, (real_minimizer rs (some x) e).1 = l.map some ∧
      l.head? = some x ∧ l.getLast? = some 0 ∧
      List.Chain' (fun p q : ℚ => |q| ≤ |p|) l := by
  refine ⟨x :: ((real_minimizer_loop rs x e).1 ++ [0]), by simp [real_minimizer], rfl, ?_, ?_⟩
  · rw [← List.cons_append, List.getLast?_append]
    simp
  · rw [← List.cons_append]
    refine List.Chain'.append (real_minimizer_loop_chain rs x e) (List.chain'_singleton 0) ?_
    intro p _ q hq
    simp only [List.head?_cons, Option.mem_def, Option.some.injEq] at hq
    subst hq
    simp

/-- C18 as amended: in every iteration of the loop of the real minimizer the
divisor is drawn from the interval `vel a`, with `a` the absolute value of the
current value before the division, and that interval is `[20, 30]` when
`a < 2 * 10 ^ 64`, `[2 * 10 ^ 10, 2 * 10 ^ 20]` when
`2 * 10 ^ 64 ≤ a < 2 * 10 ^ 128`, and `[2 * 10 ^ 75, 2 * 10 ^ 100]` otherwise. -/
theorem vel_bands (rs : real_source E) (b : ℚ) (e : E) (a : ℚ) :
    (real_minimizer_loop rs b e).1.head? =
      some (b / (rs.uniform_real (vel |b|).1 (vel |b|).2 e).1) ∧
    (a < 2 * 10 ^ 64 → vel a = (20, 30)) ∧
    (2 * 10 ^ 64 ≤ a → a < 2 * 10 ^ 128 → vel a = (2 * 10 ^ 10, 2 * 10 ^ 20)) ∧
    (2 * 10 ^ 128 ≤ a → vel a = (2 * 10 ^ 75, 2 * 10 ^ 100)) := by
  have c64 : (2e64 : ℚ) = 2 * 10 ^ 64 := by norm_num
  have c128 : (2e128 : ℚ) = 2 * 10 ^ 128 := by norm_num
  refine ⟨real_minimizer_loop_head rs b e, ?_, ?_, ?_⟩
  · intro h
    unfold vel
    rw [c64, if_pos h]
    norm_num
  · intro h h2
    unfold vel
    rw [c64, c128, if_neg (not_lt.2 h), if_pos h2]
    norm_num
  · intro h
    have h1 : (2 : ℚ) * 10 ^ 64 ≤ a := le_trans (by norm_num) h
    unfold vel
    rw [c64, c128, if_neg (not_lt.2 h1), if_neg (not_lt.2 h)]
    norm_num

/-- Counterexample to C18 as stated: the magnitude `2 ^ 64` lies in the band
`2 ^ 64 ≤ a < 2 ^ 128`, and the interval of its divisor is `[20, 30]`, not
`[2 * 10 ^ 10, 2 * 10 ^ 20]`. -/
theorem vel_at_two_pow_64 :
    (2 : ℚ) ^ 64 ≤ 2 ^ 64 ∧ (2 : ℚ) ^ 64 < 2 ^ 128 ∧ vel (2 ^ 64) = (20, 30) ∧
      vel (2 ^ 64) ≠ (2 * 10 ^ 10, 2 * 10 ^ 20) := by
  have h1 : (2 : ℚ) ^ 64 < 2e64 := by norm_num
  have hv : vel (2 ^ 64) = (20, 30) := by
    unfold vel
    rw [if_pos h1]
    norm_num
  refine ⟨le_refl _, by norm_num, hv, ?_⟩
  rw [hv]
  norm_num

/-- Witness of the amended C18: the magnitude `10 ^ 70` lies in the middle
band. -/
theorem vel_bands_witness :
    ((2 : ℚ) * 10 ^ 64 ≤ 10 ^ 70 ∧ (10 : ℚ) ^ 70 < 2 * 10 ^ 128) ∧
      vel (10 ^ 70) = (2 * 10 ^ 10, 2 * 10 ^ 20) :=
  ⟨by norm_num,
    (vel_bands lowest_source 1 () (10 ^ 70)).2.2.1 (by norm_num) (by norm_num)⟩

end real_minimizer_theorems

/-! ## The generators -/

section generator_theorems

variable {E β : Type}

/-- C21: for an integral and for a floating-point type alike, the interval
generator hands `min` and `max` unchanged to the uniform distribution and
returns its draw; so for `min ≤ max` (the draw of the random source lying in
the interval asked for) the value returned lies between `min` and `max`, and
the property method of the tests returns `TEST_SUCCESS` on every `x` and
`y`. -/
theorem interval_generator_in_range (rs : random_source E) (rr : real_source E)
    (mn mx x y : Int) (qmn qmx : ℚ) (e : E) :
    uniform_integral_generator_interval rs mn mx e = rs.uniform_int mn mx e ∧
    uniform_real_generator_interval rr qmn qmx e = rr.uniform_real qmn qmx e ∧
    (mn ≤ mx → mn ≤ (uniform_integral_generator_interval rs mn mx e).1 ∧
      (uniform_integral_generator_interval rs mn mx e).1 ≤ mx) ∧
    (qmn ≤ qmx → qmn ≤ (uniform_real_generator_interval rr qmn qmx e).1 ∧
      (uniform_real_generator_interval rr qmn qmx e).1 ≤ qmx) ∧
    (prop_GenInInterval rs x y e).1 = TEST_SUCCESS := by
  refine ⟨rfl, rfl, fun h => rs.uniform_int_range mn mx e h,
    fun h => rr.uniform_real_range qmn qmx e h, ?_⟩
  have h := rs.uniform_int_range (min x y) (max x y) e (le_trans (min_le_left x y) (le_max_left x y))
  simp only [prop_GenInInterval, uniform_integral_generator_interval]
  rw [if_pos h]

/-- Witness of C21: the interval `[3, 9]` with the counting source, and
`[1/2, 3/4]` with the source of lower bounds. -/
theorem interval_generator_in_range_witness :
    ((3 : Int) ≤ 9 ∧ (1 / 2 : ℚ) ≤ 3 / 4) ∧
    (3 ≤ (uniform_integral_generator_interval counting_source 3 9 4).1 ∧
      (uniform_integral_generator_interval counting_source 3 9 4).1 ≤ 9) ∧
    ((1 / 2 : ℚ) ≤ (uniform_real_generator_interval lowest_source (1 / 2) (3 / 4) ()).1 ∧
      (uniform_real_generator_interval lowest_source (1 / 2) (3 / 4) ()).1 ≤ 3 / 4) :=
  ⟨⟨by decide, by norm_num⟩,
    (interval_generator_in_range counting_source
      ({ uniform_real := fun a _ s => (a, s),
         uniform_real_range := fun _ _ _ h => ⟨le_refl _, h⟩ } : real_source Nat)
      3 9 0 0 0 0 4).2.2.1 (by decide),
    (interval_generator_in_range (fixed_source 0) lowest_source 0 0 0 0 (1 / 2) (3 / 4)
      ()).2.2.2.1 (by norm_num)⟩

/-- The loop of the container generator appends to `xs` the values of the next
`k` draws, in draw order. -/
theorem back_container_generator_loop_eq (gen : E → β × E) (k : Nat) :
    ∀ (xs : List β) (e : E),
      back_container_generator_loop gen k xs e =
        (xs ++ (List.range k).map (fun i => (gen ((fun s => (gen s).2)^[i] e)).1),
          (fun s => (gen s).2)^[k] e) := by
  induction k with
  | zero => intro xs e; simp [back_container_generator_loop]
  | succ k ih =>
    intro xs e
    rw [back_container_generator_loop, ih, List.range_succ_eq_map]
    simp [Function.comp_def]

/-- C22: for every state of the random source, the unbounded container
generator returns a container whose length is the length `n` it drew from
`[0, 128]`, so at most 128, and whose `i`-th element is the value of the
`i`-th draw of the element generator after that, in draw order; the engine is
left in the state after those `n` draws. -/
theorem back_container_generator_spec (rs : random_source E) (gen : E → β × E) (e : E) :
    ((back_container_generator rs gen e).1.length : Int) = (rs.uniform_int 0 128 e).1 ∧
    (back_container_generator rs gen e).1.length ≤ 128 ∧
    (∀ i, i < (back_container_generator rs gen e).1.length →
      (back_container_generator rs gen e).1[i]? =
        some (gen ((fun s => (gen s).2)^[i] (rs.uniform_int 0 128 e).2)).1) ∧
    (back_container_generator rs gen e).2 =
      (fun s => (gen s).2)^[(back_container_generator rs gen e).1.length]
        (rs.uniform_int 0 128 e).2 := by
  have hrange := rs.uniform_int_range 0 128 e (by decide)
  have hlen : (back_container_generator rs gen e).1.length = (rs.uniform_int 0 128 e).1.toNat := by
    simp [back_container_generator, back_container_generator_sized,
      back_container_generator_loop_eq]
  refine ⟨by rw [hlen]; omega, by rw [hlen]; omega, ?_, ?_⟩
  · intro i hi
    rw [hlen] at hi
    simp [back_container_generator, back_container_generator_sized,
      back_container_generator_loop_eq, hi]
  · rw [hlen]
    simp [back_container_generator, back_container_generator_sized,
      back_container_generator_loop_eq]

end generator_theorems

/-! ## The sequence of the integral minimizer, element by element -/

section integral_sequence_theorems

variable {E : Type}

theorem divisor_state_succ (rs : random_source E) (e : E) (i : Nat) :
    divisor_state rs e (i + 1) = divisor_state rs (rs.uniform_int 2 3 e).2 i := by
  simp [divisor_state, Function.iterate_succ_apply]

theorem divisor_succ (rs : random_source E) (e : E) (i : Nat) :
    divisor rs e (i + 1) = divisor rs (rs.uniform_int 2 3 e).2 i := by
  simp [divisor, divisor_state_succ]

theorem divisor_zero (rs : random_source E) (e : E) :
    divisor rs e 0 = (rs.uniform_int 2 3 e).1 := by
  simp [divisor, divisor_state]

theorem divisor_mem (rs : random_source E) (e : E) (i : Nat) :
    divisor rs e i = 2 ∨ divisor rs e i = 3 := by
  have h := rs.uniform_int_range 2 3 (divisor_state rs e i) (by decide)
  simp only [divisor]
  omega

theorem integral_minimizer_loop_eq_nil (rs : random_source E) (x : Int) (e : E) :
    (integral_minimizer_loop rs x e).1 = [] ↔ x = 0 := by
  constructor
  · intro h
    by_contra hx
    rw [integral_minimizer_loop_of_ne_zero rs x e hx] at h
    simp at h
  · rintro rfl
    rw [integral_minimizer_loop_zero]

/-- The values the loop of the integral minimizer pushes, one after the other:
each is the quotient of the one before it by the divisor drawn at that point,
the quotient of the last one is 0, and the engine has made one draw per
value. -/
theorem integral_minimizer_loop_steps (rs : random_source E) (n : Nat) :
    ∀ (x : Int) (e : E), x.natAbs ≤ n →
      (∀ i, i + 1 < (integral_minimizer_loop rs x e).1.length →
        (integral_minimizer_loop rs x e).1[i + 1]? =
          ((integral_minimizer_loop rs x e).1[i]?).map
            (fun y => y.tdiv (divisor rs e i))) ∧
      (∀ xk, (integral_minimizer_loop rs x e).1.getLast? = some xk →
        xk.tdiv (divisor rs e ((integral_minimizer_loop rs x e).1.length - 1)) = 0) ∧
      (integral_minimizer_loop rs x e).2 =
        divisor_state rs e (integral_minimizer_loop rs x e).1.length := by
  induction n with
  | zero =>
    intro x e hx
    obtain rfl : x = 0 := by omega
    rw [integral_minimizer_loop_zero]
    simp [divisor_state]
  | succ n ih =>
    intro x e hx
    by_cases h0 : x = 0
    · subst h0
      rw [integral_minimizer_loop_zero]
      simp [divisor_state]
    · have hlt := (tdiv_draw rs x e).2.1 h0
      obtain ⟨h1, h2, h3⟩ := ih (x.tdiv (rs.uniform_int 2 3 e).1) (rs.uniform_int 2 3 e).2
        (by omega)
      have hnil := integral_minimizer_loop_eq_nil rs (x.tdiv (rs.uniform_int 2 3 e).1)
        (rs.uniform_int 2 3 e).2
      have hhead := (integral_minimizer_loop_spec rs n (x.tdiv (rs.uniform_int 2 3 e).1)
        (rs.uniform_int 2 3 e).2 (by omega)).2.2.2.1
      rw [integral_minimizer_loop_of_ne_zero rs x e h0]
      generalize hl : (integral_minimizer_loop rs (x.tdiv (rs.uniform_int 2 3 e).1)
        (rs.uniform_int 2 3 e).2).1 = l at h1 h2 h3 hnil hhead
      refine ⟨?_, ?_, ?_⟩
      · intro i hi
        cases i with
        | zero =>
          have hne : l ≠ [] := by
            intro hnil2
            rw [hnil2] at hi
            simp at hi
          have hq : x.tdiv (rs.uniform_int 2 3 e).1 ≠ 0 := fun hq => hne (hnil.2 hq)
          have := hhead hq
          cases l with
          | nil => exact absurd rfl hne
          | cons y l =>
            simp only [List.head?_cons, Option.some.injEq] at this
            simp [this, divisor_zero]
        | succ i =>
          simp only [List.length_cons] at hi
          have := h1 i (by omega)
          simp only [List.getElem?_cons_succ]
          rw [this, divisor_succ]
      · intro xk hxk
        simp only [List.length_cons, Nat.add_sub_cancel]
        cases l with
        | nil =>
          simp only [List.getLast?_singleton, Option.some.injEq] at hxk
          subst hxk
          rw [List.length_nil, divisor_zero]
          exact hnil.1 rfl
        | cons y l =>
          rw [List.getLast?_cons_cons] at hxk
          have := h2 xk hxk
          simp only [List.length_cons, Nat.add_sub_cancel] at this ⊢
          rw [divisor_succ]
          exact this
      · simp only [List.length_cons]
        rw [divisor_state_succ]
        exact h3

/-- C23: for every integer `x` and every sequence of divisors drawn from
`[2, 3]`, the integral minimizer returns the values `x0, ..., xk` followed by
0, where `x0 = x`, each `x(i+1)` is the quotient of `xi` by the `i`-th divisor
truncated toward zero, every `xi` is not 0 and the quotient of `xk` is 0; for
`x = 0` it returns `[0]`. One divisor is drawn per `xi`. -/
theorem integral_minimizer_sequence (rs : random_source E) (x : Int) (e : E) :
    (integral_minimizer rs x e).1 = (integral_minimizer_loop rs x e).1 ++ [0] ∧
    (x = 0 → (integral_minimizer rs x e).1 = [0]) ∧
    (x ≠ 0 → (integral_minimizer_loop rs x e).1[0]? = some x) ∧
    (∀ y ∈ (integral_minimizer_loop rs x e).1, y ≠ 0) ∧
    (∀ i, divisor rs e i = 2 ∨ divisor rs e i = 3) ∧
    (∀ i, i + 1 < (integral_minimizer_loop rs x e).1.length →
      (integral_minimizer_loop rs x e).1[i + 1]? =
        ((integral_minimizer_loop rs x e).1[i]?).map (fun y => y.tdiv (divisor rs e i))) ∧
    (∀ xk, (integral_minimizer_loop rs x e).1.getLast? = some xk →
      xk.tdiv (divisor rs e ((integral_minimizer_loop rs x e).1.length - 1)) = 0) ∧
    (integral_minimizer rs x e).2 =
      divisor_state rs e (integral_minimizer_loop rs x e).1.length := by
  obtain ⟨_, hnz, _, hhead, _⟩ := integral_minimizer_loop_spec rs x.natAbs x e (le_refl _)
  obtain ⟨h1, h2, h3⟩ := integral_minimizer_loop_steps rs x.natAbs x e (le_refl _)
  refine ⟨rfl, ?_, ?_, hnz, divisor_mem rs e, h1, h2, h3⟩
  · rintro rfl
    simp [integral_minimizer, integral_minimizer_loop_zero]
  · intro hx
    have := hhead hx
    cases hl : (integral_minimizer_loop rs x e).1 with
    | nil => rw [hl] at this; simp at this
    | cons y l => rw [hl] at this; simpa using this

/-- From `x` on, every value the loop of the integral minimizer pushes, and
the final 0, is strictly smaller in absolute value than the one before it. -/
theorem integral_minimizer_loop_strict (rs : random_source E) (n : Nat) :
    ∀ (x : Int) (e : E), x.natAbs ≤ n →
      List.Chain' (fun a b : Int => b.natAbs < a.natAbs)
        ((integral_minimizer_loop rs x e).1 ++ [0]) := by
  induction n with
  | zero =>
    intro x e hx
    obtain rfl : x = 0 := by omega
    rw [integral_minimizer_loop_zero]
    simp
  | succ n ih =>
    intro x e hx
    by_cases h0 : x = 0
    · subst h0
      rw [integral_minimizer_loop_zero]
      simp
    · have hlt := (tdiv_draw rs x e).2.1 h0
      have hc := ih (x.tdiv (rs.uniform_int 2 3 e).1) (rs.uniform_int 2 3 e).2 (by omega)
      have hhead := (integral_minimizer_loop_spec rs n (x.tdiv (rs.uniform_int 2 3 e).1)
        (rs.uniform_int 2 3 e).2 (by omega)).2.2.2.1
      have hnil := integral_minimizer_loop_eq_nil rs (x.tdiv (rs.uniform_int 2 3 e).1)
        (rs.uniform_int 2 3 e).2
      rw [integral_minimizer_loop_of_ne_zero rs x e h0, List.cons_append]
      apply List.Chain'.cons' hc
      intro y hy
      by_cases hq : x.tdiv (rs.uniform_int 2 3 e).1 = 0
      · rw [hnil.2 hq] at hy
        simp only [List.nil_append, List.head?_cons, Option.mem_def, Option.some.injEq] at hy
        subst hy
        simp only [Int.natAbs_zero]
        omega
      · rw [List.head?_append_of_ne_nil _ (fun h => hq (hnil.1 h)), hhead hq] at hy
        simp only [Option.mem_def, Option.some.injEq] at hy
        subst hy
        exact hlt

/-- C24: for every integer `x` (0 or not) and every choice of the divisors in
`[2, 3]`, each element of the sequence of the integral minimizer after the
first is strictly smaller in absolute value than the element before it, the
final 0 included; so no two consecutive elements have the same absolute
value. -/
theorem integral_minimizer_strict (rs : random_source E) (x : Int) (e : E) :
    List.Chain' (fun a b : Int => b.natAbs < a.natAbs) (integral_minimizer rs x e).1 ∧
    List.Chain' (fun a b : Int => a.natAbs ≠ b.natAbs) (integral_minimizer rs x e).1 := by
  have h := integral_minimizer_loop_strict rs x.natAbs x e (le_refl _)
  exact ⟨h, h.imp (fun a b hab => by omega)⟩

/-- The loop of the integral minimizer pushes at most `Nat.log 2 |x| + 1`
values when `x` is not 0. -/
theorem integral_minimizer_loop_length (rs : random_source E) (n : Nat) :
    ∀ (x : Int) (e : E), x.natAbs ≤ n → x ≠ 0 →
      (integral_minimizer_loop rs x e).1.length ≤ Nat.log 2 x.natAbs + 1 := by
  induction n with
  | zero => intro x e hx h0; omega
  | succ n ih =>
    intro x e hx h0
    have hlt := (tdiv_draw rs x e).2.1 h0
    have hd := rs.uniform_int_range 2 3 e (by decide)
    rw [integral_minimizer_loop_of_ne_zero rs x e h0]
    simp only [List.length_cons, Nat.add_le_add_iff_right]
    by_cases hq : x.tdiv (rs.uniform_int 2 3 e).1 = 0
    · rw [hq, integral_minimizer_loop_zero]
      simp
    · have hlen := ih (x.tdiv (rs.uniform_int 2 3 e).1) (rs.uniform_int 2 3 e).2 (by omega) hq
      have hq1 : 1 ≤ (x.tdiv (rs.uniform_int 2 3 e).1).natAbs := by omega
      have hhalf : (x.tdiv (rs.uniform_int 2 3 e).1).natAbs ≤ x.natAbs / 2 := by
        rw [Int.natAbs_tdiv]
        show x.natAbs / (rs.uniform_int 2 3 e).1.natAbs ≤ x.natAbs / 2
        exact Nat.div_le_div_left (by omega) (by decide)
      have hlog : Nat.log 2 (x.tdiv (rs.uniform_int 2 3 e).1).natAbs + 1 ≤ Nat.log 2 x.natAbs := by
        have h2 : 2 ≤ x.natAbs := by omega
        have hm : Nat.log 2 _ ≤ Nat.log 2 _ := Nat.log_mono_right hhalf
        have hdiv : Nat.log 2 (x.natAbs / 2) = Nat.log 2 x.natAbs - 1 := Nat.log_div_base 2 _
        have hpos : 1 ≤ Nat.log 2 x.natAbs := Nat.log_pos (by decide) h2
        omega
      omega

/-- C25: for every integer `x` and every choice of the divisors in `[2, 3]`,
the loop of the integral minimizer ends after one draw per value pushed (the
sequence returned has one element more than draws were made), and for `x`
other than 0 the sequence returned has at most `floor(log2 |x|) + 2`
elements. -/
theorem integral_minimizer_length (rs : random_source E) (x : Int) (e : E) :
    (integral_minimizer rs x e).2 =
      divisor_state rs e ((integral_minimizer rs x e).1.length - 1) ∧
    (x ≠ 0 → (integral_minimizer rs x e).1.length ≤ Nat.log 2 x.natAbs + 2) := by
  have h3 := (integral_minimizer_loop_steps rs x.natAbs x e (le_refl _)).2.2
  constructor
  · simp only [integral_minimizer, List.length_append, List.length_singleton,
      Nat.add_sub_cancel]
    exact h3
  · intro hx
    have h := integral_minimizer_loop_length rs x.natAbs x e (le_refl _) hx
    simp only [integral_minimizer, List.length_append, List.length_singleton]
    omega

/-- Witness of C25 at `x = 100`. -/
theorem integral_minimizer_length_witness :
    (100 : Int) ≠ 0 ∧
    (integral_minimizer counting_source 100 1).1.length ≤ Nat.log 2 (100 : Int).natAbs + 2 :=
  ⟨by decide, (integral_minimizer_length counting_source 100 1).2 (by decide)⟩

end integral_sequence_theorems

/-! ## The end of the loop of the real minimizer -/

section real_loop_theorems

variable {E : Type}

/-- The measure of the loop of the real minimizer goes down at every iteration
that is followed by another. -/
theorem real_measure_decreases (b r : ℚ) (hb : 1e-20 < |b|) (hr : 20 ≤ r) :
    ⌈|b / r| * 1e20⌉₊ < ⌈|b| * 1e20⌉₊ := by
  have hr0 : (0 : ℚ) < r := by linarith
  have hy : (1 : ℚ) < |b| * 1e20 := by
    norm_num at hb ⊢
    linarith
  rw [Nat.lt_ceil, abs_div, abs_of_pos hr0, div_mul_eq_mul_div]
  by_cases hsmall : |b| * 1e20 / r ≤ 1
  · have h0 : ⌈|b| * 1e20 / r⌉₊ ≤ 1 := Nat.ceil_le.2 (by simpa using hsmall)
    have h1 : ((⌈|b| * 1e20 / r⌉₊ : ℕ) : ℚ) ≤ 1 := by exact_mod_cast h0
    exact lt_of_le_of_lt h1 hy
  · push_neg at hsmall
    have hnn : (0 : ℚ) ≤ |b| * 1e20 / r := by positivity
    have h1 := Nat.ceil_lt_add_one hnn
    have h2 : |b| * 1e20 / r ≤ |b| * 1e20 / 20 :=
      div_le_div_of_nonneg_left (by positivity) (by norm_num) hr
    have h3 : (20 : ℚ) < |b| * 1e20 := by
      have := (lt_div_iff₀ hr0).1 hsmall
      linarith
    linarith [h1, h2, h3]

/-- The loop of the real minimizer entered with `b`: it runs at least once and
at most `⌈|b| * 10 ^ 20⌉ + 1` times; every iteration but the last starts from
a value larger than `1e-20` in absolute value, the last from one that is
not. -/
theorem real_minimizer_loop_stops (rs : real_source E) (b : ℚ) (e : E) :
    1 ≤ (real_minimizer_loop rs b e).1.length ∧
    (real_minimizer_loop rs b e).1.length ≤ ⌈|b| * 1e20⌉₊ + 1 ∧
    (∀ p ∈ (b :: (real_minimizer_loop rs b e).1.dropLast).dropLast, 1e-20 < |p|) ∧
    (∃ p, (b :: (real_minimizer_loop rs b e).1.dropLast).getLast? = some p ∧
      ¬ 1e-20 < |p|) := by
  induction b, e using real_minimizer_loop.induct rs with
  | case1 b e h ih =>
    obtain ⟨h1, h2, h3, p, hp, hple⟩ := ih
    have hdec := real_measure_decreases b _ h (draw_ge rs b e)
    rw [real_minimizer_loop_of_gt rs b e h]
    generalize hl : (real_minimizer_loop rs (b / (rs.uniform_real (vel |b|).1 (vel |b|).2 e).1)
      (rs.uniform_real (vel |b|).1 (vel |b|).2 e).2).1 = l at h1 h2 h3 hp
    generalize hq : b / (rs.uniform_real (vel |b|).1 (vel |b|).2 e).1 = q at h2 h3 hp hdec
    have hne : l ≠ [] := by
      intro hnil
      rw [hnil] at h1
      simp at h1
    have hdrop : (q :: l).dropLast = q :: l.dropLast := by
      cases l with
      | nil => exact absurd rfl hne
      | cons y l => rfl
    refine ⟨by simp, ?_, ?_, ?_⟩
    · simp only [List.length_cons]
      omega
    · rw [hdrop]
      intro p1 hp1
      have hd2 : (b :: q :: l.dropLast).dropLast = b :: (q :: l.dropLast).dropLast := rfl
      rw [hd2] at hp1
      rcases List.mem_cons.1 hp1 with rfl | hp1
      · exact h
      · exact h3 p1 hp1
    · rw [hdrop]
      refine ⟨p, ?_, hple⟩
      rw [List.getLast?_cons_cons]
      exact hp
  | case2 b e h =>
    rw [real_minimizer_loop_of_le rs b e h]
    refine ⟨by simp, by simp, by simp, b, by simp, h⟩

/-- C26: for every finite `x` and every choice of the divisors from the
intervals of `vel` (each at least 20), in exact arithmetic, the loop of the
real minimizer ends: it runs at least once and at most `⌈|x| * 10 ^ 20⌉ + 1`
times, it goes on after every iteration that started from a magnitude above
`1e-20` and stops after the first that did not, and the sequence returned has
at least 3 elements. -/
theorem real_minimizer_terminates (rs : real_source E) (x : ℚ) (e : E) :
    (∀ b e1, 20 ≤ (rs.uniform_real (vel |b|).1 (vel |b|).2 e1).1) ∧
    1 ≤ (real_minimizer_loop rs x e).1.length ∧
    (real_minimizer_loop rs x e).1.length ≤ ⌈|x| * 1e20⌉₊ + 1 ∧
    (∀ p ∈ (x :: (real_minimizer_loop rs x e).1.dropLast).dropLast, 1e-20 < |p|) ∧
    (∃ p, (x :: (real_minimizer_loop rs x e).1.dropLast).getLast? = some p ∧ |p| ≤ 1e-20) ∧
    (real_minimizer rs (some x) e).1.length = (real_minimizer_loop rs x e).1.length + 2 ∧
    3 ≤ (real_minimizer rs (some x) e).1.length := by
  obtain ⟨h1, h2, h3, p, hp, hple⟩ := real_minimizer_loop_stops rs x e
  have hlen : (real_minimizer rs (some x) e).1.length =
      (real_minimizer_loop rs x e).1.length + 2 := by
    simp [real_minimizer]
  exact ⟨fun b e1 => draw_ge rs b e1, h1, h2, h3, ⟨p, hp, not_lt.1 hple⟩, hlen, by omega⟩

end real_loop_theorems

/-! ## How a run of `go` ends -/

section go_end_theorems

variable {E α : Type}

/-- An iteration that yields an outcome is an attempt with that outcome,
followed by its accounting. -/
theorem iteration_eq_value (test : predicate E α) (b : binding E α) (bs : List (binding E α))
    (conf conf1 : qc_config) (out out1 : List (message α)) (e e1 : E) (r1 : state)
    (h : iteration test b bs conf out e = (Result.value r1, conf1, out1, e1)) :
    attempt test b bs conf out e = (Result.value r1, out1, e1) ∧ conf1 = account r1 conf := by
  simp only [iteration] at h
  rcases hat : attempt test b bs conf out e with ⟨r | _ | _, out2, e2⟩
  · rw [hat] at h
    simp only [Prod.mk.injEq, Result.value.injEq] at h
    obtain ⟨h1, h2, h3, h4⟩ := h
    subst h1 h3 h4
    exact ⟨rfl, h2.symm⟩
  · rw [hat] at h
    simp at h
  · rw [hat] at h
    simp at h

/-- When the loop of `go` ends with an outcome, its condition is false, and
either it never ran or its final state is that of an attempt made with
`again()` true, accounted for. -/
theorem go_loop_last (test : predicate E α) (b : binding E α) (bs : List (binding E α))
    (fuel : Nat) :
    ∀ (r : state) (conf : qc_config) (out : List (message α)) (e : E)
      (r1 : state) (conf1 : qc_config) (out1 : List (message α)) (e1 : E),
      go_loop test b bs fuel r conf out e = some (Result.value r1, conf1, out1, e1) →
        ¬ (conf1.again = true ∧ r1 ≠ TEST_FAILURE) ∧
        ((¬ (conf.again = true ∧ r ≠ TEST_FAILURE) ∧
            r1 = r ∧ conf1 = conf ∧ out1 = out ∧ e1 = e) ∨
          ∃ conf0 out0 e0, conf0.again = true ∧
            conf0.max_tests = conf.max_tests ∧ conf0.max_discards = conf.max_discards ∧
            attempt test b bs conf0 out0 e0 = (Result.value r1, out1, e1) ∧
            conf1 = account r1 conf0) := by
  induction fuel with
  | zero =>
    intro r conf out e r1 conf1 out1 e1 h
    simp only [go_loop] at h
    split at h
    · simp at h
    · rename_i hc
      simp only [Option.some.injEq, Prod.mk.injEq, Result.value.injEq] at h
      obtain ⟨h1, h2, h3, h4⟩ := h
      subst h1 h2 h3 h4
      exact ⟨hc, Or.inl ⟨hc, rfl, rfl, rfl, rfl⟩⟩
  | succ fuel ih =>
    intro r conf out e r1 conf1 out1 e1 h
    simp only [go_loop] at h
    split at h
    · rename_i hc
      rcases hit : iteration test b bs conf out e with ⟨r2 | _ | _, conf2, out2, e2⟩
      · rw [hit] at h
        simp only at h
        obtain ⟨hat, hconf2⟩ := iteration_eq_value test b bs conf conf2 out out2 e e2 r2 hit
        obtain ⟨hexit, hlast⟩ := ih r2 conf2 out2 e2 r1 conf1 out1 e1 h
        refine ⟨hexit, Or.inr ?_⟩
        rcases hlast with ⟨_, h1, h2, h3, h4⟩ | ⟨conf0, out0, e0, ha, hm1, hm2, hat0, hc1⟩
        · subst h1 h2 h3 h4
          exact ⟨conf, out, e, hc.1, rfl, rfl, hat, hconf2⟩
        · have hmax := account_max r2 conf
          rw [← hconf2] at hmax
          exact ⟨conf0, out0, e0, ha, hm1.trans hmax.1, hm2.trans hmax.2, hat0, hc1⟩
      · rw [hit] at h
        simp at h
      · rw [hit] at h
        simp at h
    · rename_i hc
      simp only [Option.some.injEq, Prod.mk.injEq, Result.value.injEq] at h
      obtain ⟨h1, h2, h3, h4⟩ := h
      subst h1 h2 h3 h4
      exact ⟨hc, Or.inl ⟨hc, rfl, rfl, rfl, rfl⟩⟩

/-- C27: for every predicate that returns only `TEST_SUCCESS`, `TEST_DISCARD` or
`TEST_FAILURE` (on parameters whose minimizers return no empty list) and every
configuration with limits in `size_type`, `go` returns an outcome `r`; unless
the configuration was exhausted on entry (no attempt, `r` is `TEST_NOTHING`),
`r` is the outcome of the last attempt, made with `again()` true, and the
final configuration is the one that attempt left; when `r` is `TEST_SUCCESS`
the final `n_tests` is `max_tests`, and when `r` is `TEST_DISCARD` the final
`n_discards` is `max_discards`. -/
theorem go_outcome_of_last_attempt (test : predicate E α) (b : binding E α)
    (bs : List (binding E α)) (fuel : Nat) (conf : qc_config) (out : List (message α)) (e : E)
    (hpred : ∀ xs e1, (test xs e1).1 ≠ some TEST_NOTHING)
    (hne : ∀ e1 c e2, b.candidates e1 = (some c, e2) → c ≠ [])
    (hnes : ∀ e1 cs e2, candidates_all bs e1 = (some cs, e2) → ∀ s ∈ cs, s ≠ [])
    (hmt : conf.max_tests < size_type_mod) (hmd : conf.max_discards < size_type_mod)
    (hfuel : (conf.max_tests - conf.n_tests) + (conf.max_discards - conf.n_discards) ≤ fuel) :
    ∃ r conf1 out1 e1,
      go test b bs fuel conf out e = some (Result.value r, conf1, out1, e1) ∧
      ((conf.again = false ∧ r = TEST_NOTHING ∧ conf1 = conf) ∨
        ∃ conf0 out0 e0 out2, conf0.again = true ∧
          attempt test b bs conf0 out0 e0 = (Result.value r, out2, e1) ∧
          conf1 = account r conf0) ∧
      (r = TEST_SUCCESS → conf1.n_tests = conf1.max_tests) ∧
      (r = TEST_DISCARD → conf1.n_discards = conf1.max_discards) := by
  obtain ⟨r, conf1, out1, e1, hl⟩ := go_loop_terminates test b bs hpred hne hnes fuel
    TEST_NOTHING conf out e hmt hmd hfuel
  obtain ⟨hexit, hlast⟩ := go_loop_last test b bs fuel _ _ _ _ _ _ _ _ hl
  have hgo : ∃ out3, go test b bs fuel conf out e = some (Result.value r, conf1, out3, e1) := by
    simp only [go, hl]
    by_cases hr : r = TEST_SUCCESS
    · exact ⟨out1 ++ [message.ok conf1.n_tests conf1.n_discards], by simp [hr]⟩
    · exact ⟨out1, by simp [hr]⟩
  obtain ⟨out3, hgo⟩ := hgo
  refine ⟨r, conf1, out3, e1, hgo, ?_, ?_, ?_⟩
  · rcases hlast with ⟨hc, h1, h2, _, _⟩ | ⟨conf0, out0, e0, ha, _, _, hat, hc1⟩
    · left
      refine ⟨?_, h1, h2⟩
      simpa using hc
    · exact Or.inr ⟨conf0, out0, e0, out1, ha, hat, hc1⟩
  · intro hr
    subst hr
    rcases hlast with ⟨_, h1, _⟩ | ⟨conf0, out0, e0, ha, hm1, hm2, _, hc1⟩
    · exact absurd h1 (by decide)
    · obtain ⟨ht, hd⟩ := (again_iff conf0).1 ha
      have hmod : (conf0.n_tests + 1) % size_type_mod = conf0.n_tests + 1 :=
        Nat.mod_eq_of_lt (by omega)
      have hnot : ¬ conf1.again = true := fun hag => hexit ⟨hag, by decide⟩
      rw [again_iff] at hnot
      subst hc1
      simp only [account, hmod] at hnot ⊢
      omega
  · intro hr
    subst hr
    rcases hlast with ⟨_, h1, _⟩ | ⟨conf0, out0, e0, ha, hm1, hm2, _, hc1⟩
    · exact absurd h1 (by decide)
    · obtain ⟨ht, hd⟩ := (again_iff conf0).1 ha
      have hmod : (conf0.n_discards + 1) % size_type_mod = conf0.n_discards + 1 :=
        Nat.mod_eq_of_lt (by omega)
      have hnot : ¬ conf1.again = true := fun hag => hexit ⟨hag, by decide⟩
      rw [again_iff] at hnot
      subst hc1
      simp only [account, hmod] at hnot ⊢
      omega

/-- C28: for every predicate and every configuration exhausted on entry
(`n_tests >= max_tests` or `n_discards >= max_discards`), `go` returns
`TEST_NOTHING` without a single iteration of its loop (whatever the fuel, none
included): the engine, the output and the configuration are as they were. -/
theorem go_of_exhausted (test : predicate E α) (b : binding E α) (bs : List (binding E α))
    (fuel : Nat) (conf : qc_config) (out : List (message α)) (e : E)
    (h : conf.max_tests ≤ conf.n_tests ∨ conf.max_discards ≤ conf.n_discards) :
    go test b bs fuel conf out e = some (Result.value TEST_NOTHING, conf, out, e) ∧
    go test b bs 0 conf out e = some (Result.value TEST_NOTHING, conf, out, e) := by
  have hstop : ¬ (conf.again = true ∧ TEST_NOTHING ≠ TEST_FAILURE) := by
    rw [again_iff]
    omega
  constructor
  · simp [go, go_loop_of_stop test b bs fuel TEST_NOTHING conf out e hstop]
  · simp [go, go_loop_of_stop test b bs 0 TEST_NOTHING conf out e hstop]

/-- Witness of C28: the configuration left by a completed run of 128 tests,
used again. -/
theorem go_of_exhausted_witness :
    ((128 : Nat) ≤ 128 ∨ (1024 : Nat) ≤ 0) ∧
    go never_holds (constant_binding 5) [] 7
        { n_tests := 128, max_tests := 128, n_discards := 0, max_discards := 1024 } [] () =
      some (Result.value TEST_NOTHING,
        { n_tests := 128, max_tests := 128, n_discards := 0, max_discards := 1024 }, [], ()) :=
  ⟨by decide,
    (go_of_exhausted never_holds (constant_binding 5) [] 7
      { n_tests := 128, max_tests := 128, n_discards := 0, max_discards := 1024 } [] ()
      (by decide)).1⟩

theorem constant_binding_ne_nil (x : Int) :
    ∀ e1 c e2, (constant_binding x).candidates e1 = (some c, e2) → c ≠ [] := by
  intro e1 c e2 h
  simp only [binding.candidates, constant_binding, minimizer_default, Prod.mk.injEq,
    Option.some.injEq] at h
  rw [← h.1]
  simp

/-- Witness of C27: a predicate that declines every input, with
`max_discards = 2`: the run ends on the discard ceiling and returns
`TEST_DISCARD`. -/
theorem go_outcome_of_last_attempt_witness :
    ((128 : Nat) < size_type_mod ∧ (2 : Nat) < size_type_mod ∧ (128 - 0) + (2 - 0) ≤ 130) ∧
    go always_discards (constant_binding 5) [] 130
        { n_tests := 0, max_tests := 128, n_discards := 0, max_discards := 2 } [] () =
      some (Result.value TEST_DISCARD,
        { n_tests := 0, max_tests := 128, n_discards := 2, max_discards := 2 }, [], ()) ∧
    ∃ r conf1 out1 e1,
      go always_discards (constant_binding 5) [] 130
          { n_tests := 0, max_tests := 128, n_discards := 0, max_discards := 2 } [] () =
        some (Result.value r, conf1, out1, e1) ∧
      (((⟨0, 128, 0, 2⟩ : qc_config).again = false ∧ r = TEST_NOTHING ∧
          conf1 = ⟨0, 128, 0, 2⟩) ∨
        ∃ conf0 out0 e0 out2, conf0.again = true ∧
          attempt always_discards (constant_binding 5) [] conf0 out0 e0 =
            (Result.value r, out2, e1) ∧
          conf1 = account r conf0) ∧
      (r = TEST_SUCCESS → conf1.n_tests = conf1.max_tests) ∧
      (r = TEST_DISCARD → conf1.n_discards = conf1.max_discards) :=
  ⟨by decide, by decide,
    go_outcome_of_last_attempt always_discards (constant_binding 5) [] 130
      { n_tests := 0, max_tests := 128, n_discards := 0, max_discards := 2 } [] ()
      (fun _ _ => by simp [always_discards])
      (constant_binding_ne_nil 5) candidates_all_nil_ne_nil
      (by decide) (by decide) (by decide)⟩

end go_end_theorems

end qcxx
